import Mathlib

/-!
# A verification model of `blockcopy.py`

This file gives a shallow embedding of the three stages of the `blockcopy`
utility (`do_checksum`, `do_retrieve`, `do_save` in `blockcopy.py`) and proves
the specification claims about them.

Modelling conventions:

* A file (regular file or block device) is a `List Nat` of its bytes; reading
  and writing through a file handle are `fread` / `fwrite` below, matching the
  POSIX semantics used by the Python code (`read` returns at most the
  requested number of bytes, `seek`-then-`write` past end-of-file pads the gap
  with zero bytes, writing nothing never extends the file).
* The byte streams exchanged between the stages are `List Nat` values; the
  4-byte ASCII tags and big-endian integer fields are laid out exactly as the
  Python code writes them (`encBE`).
* `hashlib.sha3_512(data).digest()` is an abstract parameter
  `H : List Nat → List Nat` producing 64-"byte" digests.  Claims that need
  collision freedom take `Function.Injective H` as a hypothesis; `mockHash`
  below is a concrete injective instance used for witnesses.
* The worker threads of `do_checksum`/`do_retrieve` are sequentialised.  This
  is faithful for the output stream: the single send worker drains its queue
  in the order the single read worker enqueued batch tokens, so the wire
  content of a successful run is deterministic and equal to the sequential
  execution modelled here.  The size-16 batching of the read workers is
  modelled explicitly (`procEntry`) because it is observable in the order of
  records on the wire.
* A process outcome is the produced output stream plus `Option String`:
  `none` models exit status 0, `some msg` models `sys.exit(msg)` (a non-zero
  exit with `msg` on stderr).
-/

namespace Blockcopy

/-- `block_size = 128 * 1024` from `blockcopy.py`. -/
def block_size : Nat := 128 * 1024

/-- `hash_digest_size`: SHA3-512 digests are 64 bytes. -/
def hash_digest_size : Nat := 64

/-- The bytes of the ASCII tag `"Hash"`. -/
def tagHashU : List Nat := [72, 97, 115, 104]

/-- The bytes of the ASCII tag `"hash"` (deprecated position-less record). -/
def tagHashL : List Nat := [104, 97, 115, 104]

/-- The bytes of the ASCII tag `"rest"`. -/
def tagRest : List Nat := [114, 101, 115, 116]

/-- The bytes of the ASCII tag `"done"`. -/
def tagDone : List Nat := [100, 111, 110, 101]

/-- The bytes of the ASCII tag `"data"`. -/
def tagData : List Nat := [100, 97, 116, 97]

/-- Big-endian encoding of `n` on `w` bytes: `n.to_bytes(w, 'big')`.
(The Python call raises `OverflowError` for `n ≥ 256 ^ w`; the claims that
use the encoding carry the corresponding bound as a hypothesis.) -/
def encBE : Nat → Nat → List Nat
  | 0, _ => []
  | w + 1, n => encBE w (n / 256) ++ [n % 256]

/-- Big-endian decoding: `int.from_bytes(l, 'big')`. -/
def decBE (l : List Nat) : Nat := l.foldl (fun a b => 256 * a + b) 0

/-- `f.seek(pos); f.read(n)`: the bytes of `f` from `pos`, at most `n` of
them. -/
def fread (f : List Nat) (pos n : Nat) : List Nat := (f.drop pos).take n

/-- `f.seek(pos); f.write(d)`: overwrite `f` at `[pos, pos + d.length)`.  A
write past end-of-file zero-pads the gap; writing the empty string leaves the
file untouched (a bare `seek` does not extend a file). -/
def fwrite (f : List Nat) (pos : Nat) (d : List Nat) : List Nat :=
  if d = [] then f
  else f.take pos ++ List.replicate (pos - f.length) 0 ++ d ++ f.drop (pos + d.length)

/-- Apply a sequence of `(pos, data)` writes to a file, first to last. -/
def applyWrites (f : List Nat) (ws : List (Nat × List Nat)) : List Nat :=
  ws.foldl (fun acc w => fwrite acc w.1 w.2) f

/-- The read loop of `do_checksum.read_worker` (also reused for the `rest`
phase of `do_retrieve.read_worker`): starting at `pos`, repeatedly read a
block of at most `block_size` bytes (clipped to `end_offset` when given) until
a read comes back empty or the cursor reaches `end_offset`.  Returns the list
of `(block_pos, block_data)` pairs in read order and the final cursor
(`f.tell()` after the loop).  `fuel` bounds the recursion; every block is
nonempty, so `D.length + 1` steps always suffice.
`readLen` is how many bytes one loop iteration requests at `pos`:
`block_size`, clipped to `end_offset` when that is given (a cursor at or past
`end_offset` requests nothing and ends the loop). -/
def readLen (endOff : Option Nat) (pos : Nat) : Nat :=
  match endOff with
  | none => block_size
  | some e => if e ≤ pos then 0 else min block_size (e - pos)

/-- The read loop of `do_checksum.read_worker`; see `readLen` above. -/
def checksumReadAux (D : List Nat) (endOff : Option Nat) : Nat → Nat → List (Nat × List Nat) × Nat
  | 0, pos => ([], pos)
  | fuel + 1, pos =>
    let d := fread D pos (readLen endOff pos)
    if d = [] then ([], pos)
    else
      let r := checksumReadAux D endOff fuel (pos + d.length)
      ((pos, d) :: r.1, r.2)

/-- The blocks read by `do_checksum.read_worker` from file `D`, with the final
cursor position. -/
def checksumRead (D : List Nat) (endOff : Option Nat) (pos : Nat) : List (Nat × List Nat) × Nat :=
  checksumReadAux D endOff (D.length + 1) pos

/-- One record of the hash stream written by `do_checksum`. -/
inductive HashItem where
  | hashRec (pos len : Nat) (dig : List Nat)
  | restRec (off : Nat)
  | doneRec
deriving DecidableEq

/-- The records of the hash stream produced by a successful `do_checksum` run:
one `Hash` record per block (position, length, digest), then — only when the
destination stream is seekable, i.e. `f.tell()` did not raise after the read
loop — a single `rest(source_end_offset)`, then `done`. -/
def checksumRecords (H : List Nat → List Nat) (D : List Nat) (start : Nat)
    (endOff : Option Nat) (seekable : Bool) : List HashItem :=
  let r := checksumRead D endOff start
  r.1.map (fun b => HashItem.hashRec b.1 b.2.length (H b.2))
    ++ (if seekable then [HashItem.restRec r.2] else []) ++ [HashItem.doneRec]

/-- Wire encoding of one hash-stream record, exactly as `do_checksum` writes
it (`send_worker` and the trailer of `do_checksum`). -/
def encodeHashItem : HashItem → List Nat
  | HashItem.hashRec p l dig => tagHashU ++ encBE 8 p ++ encBE 4 l ++ dig
  | HashItem.restRec e => tagRest ++ encBE 8 e
  | HashItem.doneRec => tagDone

/-- Wire encoding of a hash stream. -/
def encodeHashStream (items : List HashItem) : List Nat :=
  (items.map encodeHashItem).flatten

/-- The byte stream written by a successful `do_checksum` run. -/
def checksumStream (H : List Nat → List Nat) (D : List Nat) (start : Nat)
    (endOff : Option Nat) (seekable : Bool) : List Nat :=
  encodeHashStream (checksumRecords H D start endOff seekable)

/-- A process result: the bytes written to the output stream and the exit
condition (`none` = exit status 0, `some msg` = `sys.exit(msg)`, non-zero). -/
structure ProcResult where
  output : List Nat
  exit : Option String
deriving DecidableEq

/-- `do_checksum(file_path, hash_output_stream, start_offset, end_offset)`.
`seekable` tells whether `f.tell()` works on the destination (`False` models
reading a pipe such as `-`/`/dev/stdin`, where `tell()`/`seek()` raise
`OSError`); `isTTY` is `hash_output_stream.isatty()`.  A non-seekable
destination together with a nonzero `--start` makes the initial
`f.seek(start_offset)` raise, which the exception collector turns into a
non-zero exit before anything is written. -/
def do_checksum (H : List Nat → List Nat) (D : List Nat) (start : Nat)
    (endOff : Option Nat) (seekable isTTY : Bool) : ProcResult :=
  if isTTY then
    ⟨[], some "ERROR (checksum): hash_output_stream is a tty - will not write binary data to terminal"⟩
  else if seekable = false ∧ start ≠ 0 then
    ⟨[], some "ERROR (checksum): Collected exceptions: OSError(29, 'Illegal seek')"⟩
  else ⟨checksumStream H D start endOff seekable, none⟩

/-- An entry of `hash_batch` in `do_retrieve.read_worker`:
`(destination_hash, block_pos, block_data)`.  `destination_hash = none` marks
a short read at end-of-source (sent unconditionally). -/
def BatchEntry : Type := Option (List Nat) × Nat × List Nat

instance : DecidableEq BatchEntry := by
  unfold BatchEntry; infer_instance

/-- `do_retrieve.hash_worker` applied to one batch: keep `(block_pos,
block_data)` when the entry has no destination hash (short read) or when the
source digest differs from the destination digest. -/
def filterBatch (H : List Nat → List Nat) (batch : List BatchEntry) : List (Nat × List Nat) :=
  batch.filterMap fun e =>
    match e.1 with
    | none => some (e.2.1, e.2.2)
    | some dh => if H e.2.2 = dh then none else some (e.2.1, e.2.2)

/-- The sequential state of `do_retrieve.read_worker`: the source file cursor
(`f.tell()`), the pending `hash_batch`, and the `data` records already handed
to the send worker, in wire order. -/
structure RetSt where
  cursor : Nat
  pending : List BatchEntry
  out : List (Nat × List Nat)
deriving DecidableEq

/-- The initial `do_retrieve` state: cursor 0, no pending batch, no output. -/
def initRetSt : RetSt := ⟨0, [], []⟩

/-- `flush_hash_batch`: hand the pending batch to a hash worker, whose
filtered result the send worker will emit in enqueue order. -/
def flushBatch (H : List Nat → List Nat) (st : RetSt) : RetSt :=
  ⟨st.cursor, [], st.out ++ filterBatch H st.pending⟩

/-- `hash_batch.append(e)` followed by `if len(hash_batch) >= 16:
flush_hash_batch()`. -/
def procEntry (H : List Nat → List Nat) (st : RetSt) (e : BatchEntry) : RetSt :=
  if 16 ≤ st.pending.length + 1 then flushBatch H ⟨st.cursor, st.pending ++ [e], st.out⟩
  else ⟨st.cursor, st.pending ++ [e], st.out⟩

/-- How `do_retrieve.read_worker` ends: `done` received; an
`IncompleteReadError` (latched, with its message — does not poison the
collector); an `AssertionError` from `assert block_data` in the deprecated
`hash` branch; or an unknown 4-byte command (both of the latter reach the
exception collector). -/
inductive ROutcome where
  | finished
  | incomplete (msg : String)
  | assertFailed
  | unknownCommand (cmd : List Nat)
deriving DecidableEq

/-- Result of the `do_retrieve` pipeline: the `data` records in wire order
and how the read worker ended. -/
structure RResult where
  out : List (Nat × List Nat)
  outcome : ROutcome
deriving DecidableEq

/-- Message of `IncompleteReadError` for a closed hash input stream. -/
def msgHashClosed : String :=
  "The hash input stream was closed unexpectedly without receiving the `done` command"

/-- Message of `IncompleteReadError` for a short command read. -/
def msgHashCmd : String := "Incomplete read of command from hash input stream"

/-- Message of `IncompleteReadError` for a short `hash`/`Hash` payload. -/
def msgHashPayload : String := "Incomplete read of hash from hash input stream"

/-- Message of `IncompleteReadError` for a short `rest` payload. -/
def msgRestPayload : String := "Incomplete read of offset from hash input stream"

/-- The `IncompleteReadError` messages `do_retrieve.read_worker` can raise. -/
def incompleteMessages : List String :=
  [msgHashClosed, msgHashCmd, msgHashPayload, msgRestPayload]

/-- The command loop of `do_retrieve.read_worker` over the hash input stream
`input`, with source file `S`.  Matches the Python loop case by case:

* empty command read: flush the pending batch, raise incomplete-read;
* command shorter than 4 bytes: flush, raise incomplete-read;
* `done`: flush, stop successfully;
* `hash` (deprecated): read `len:u32, digest:64B` (short payload raises
  incomplete-read *without* flushing), take the block at the current cursor,
  `assert block_data` (an empty read fails the worker), batch it with the
  destination digest;
* `Hash`: read `pos:u64, len:u32, digest:64B`, seek to `pos`, read `len`
  bytes; a full read is batched with the digest, a short nonempty read is
  batched unconditionally, an empty read is skipped;
* `rest`: read `offset:u64`, seek there and stream the rest of the source
  straight to the send queue (pre-fired tokens, bypassing the hash workers,
  so these records go on the wire before the still-pending batch);
* anything else: unknown command, fails the worker.

Each iteration consumes at least 4 bytes of `input`, so `input.length + 1`
fuel always suffices; the fuel-exhausted value is never reached. -/
def retrieveRunAux (H : List Nat → List Nat) (S : List Nat) :
    Nat → List Nat → RetSt → RResult
  | 0, _, st => ⟨st.out, ROutcome.unknownCommand []⟩
  | fuel + 1, input, st =>
    let cmd := input.take 4
    if cmd = [] then ⟨(flushBatch H st).out, ROutcome.incomplete msgHashClosed⟩
    else if cmd.length ≠ 4 then ⟨(flushBatch H st).out, ROutcome.incomplete msgHashCmd⟩
    else if cmd = tagDone then ⟨(flushBatch H st).out, ROutcome.finished⟩
    else if cmd = tagHashL then
      let sizeB := (input.drop 4).take 4
      let dh := (input.drop 8).take hash_digest_size
      if sizeB.length ≠ 4 ∨ dh.length ≠ hash_digest_size then
        ⟨st.out, ROutcome.incomplete msgHashPayload⟩
      else
        let l := decBE sizeB
        let d := fread S st.cursor l
        if d = [] then ⟨st.out, ROutcome.assertFailed⟩
        else
          retrieveRunAux H S fuel (input.drop 72)
            (procEntry H ⟨st.cursor + d.length, st.pending, st.out⟩ (some dh, st.cursor, d))
    else if cmd = tagHashU then
      let posB := (input.drop 4).take 8
      let sizeB := (input.drop 12).take 4
      let dh := (input.drop 16).take hash_digest_size
      if posB.length ≠ 8 ∨ sizeB.length ≠ 4 ∨ dh.length ≠ hash_digest_size then
        ⟨st.out, ROutcome.incomplete msgHashPayload⟩
      else
        let p := decBE posB
        let l := decBE sizeB
        let d := fread S p l
        let st' : RetSt := ⟨p + d.length, st.pending, st.out⟩
        if d.length = l then
          retrieveRunAux H S fuel (input.drop 80) (procEntry H st' (some dh, p, d))
        else if d ≠ [] then
          retrieveRunAux H S fuel (input.drop 80) (procEntry H st' (none, p, d))
        else retrieveRunAux H S fuel (input.drop 80) st'
    else if cmd = tagRest then
      let offB := (input.drop 4).take 8
      if offB.length ≠ 8 then ⟨st.out, ROutcome.incomplete msgRestPayload⟩
      else
        let r := checksumRead S none (decBE offB)
        retrieveRunAux H S fuel (input.drop 12) ⟨r.2, st.pending, st.out ++ r.1⟩
    else ⟨st.out, ROutcome.unknownCommand cmd⟩

/-- The `do_retrieve.read_worker` loop with sufficient fuel. -/
def retrieveRun (H : List Nat → List Nat) (S input : List Nat) (st : RetSt) : RResult :=
  retrieveRunAux H S (input.length + 1) input st

/-- Effect of one `Hash(p, l, dh)` record on the `do_retrieve` state. -/
def stepHash (H : List Nat → List Nat) (S : List Nat) (st : RetSt)
    (p l : Nat) (dh : List Nat) : RetSt :=
  let d := fread S p l
  let st' : RetSt := ⟨p + d.length, st.pending, st.out⟩
  if d.length = l then procEntry H st' (some dh, p, d)
  else if d ≠ [] then procEntry H st' (none, p, d)
  else st'

/-- Effect of one `rest(off)` record on the `do_retrieve` state: stream the
source from `off` to EOF, directly to the send queue. -/
def stepRest (S : List Nat) (st : RetSt) (off : Nat) : RetSt :=
  let r := checksumRead S none off
  ⟨r.2, st.pending, st.out ++ r.1⟩

/-- Record-level restatement of the `do_retrieve.read_worker` loop, used to
factor byte-stream parsing out of the proofs.  `retrieveRun` on an encoded
well-formed hash stream equals `retrieveItems` on its records
(`retrieveRunAux_encode` below). -/
def retrieveItems (H : List Nat → List Nat) (S : List Nat) :
    List HashItem → RetSt → RResult
  | [], st => ⟨(flushBatch H st).out, ROutcome.incomplete msgHashClosed⟩
  | HashItem.doneRec :: _, st => ⟨(flushBatch H st).out, ROutcome.finished⟩
  | HashItem.hashRec p l dh :: rest, st => retrieveItems H S rest (stepHash H S st p l dh)
  | HashItem.restRec off :: rest, st => retrieveItems H S rest (stepRest S st off)

/-- Wire encoding of one `data` record, as `do_retrieve.send_worker` writes
it. -/
def encodeDataRec (p : Nat) (d : List Nat) : List Nat :=
  tagData ++ encBE 8 p ++ encBE 4 d.length ++ d

/-- Wire encoding of a list of `data` records. -/
def encodeDataRecords (recs : List (Nat × List Nat)) : List Nat :=
  (recs.map fun r => encodeDataRec r.1 r.2).flatten

/-- `do_retrieve(file_path, hash_input_stream, block_output_stream)` with
source file `S`; `isTTY` is `block_output_stream.isatty()`.  On `done` the
data records are followed by a trailing `done`; on an incomplete read the
flushed records are written and flushed but the process exits non-zero
without a trailing `done`.  (When a worker exception is collected —
`assertFailed` / `unknownCommand` — the set of records actually written
depends on thread scheduling; the model records the drained queue content,
and no claim relies on the output of these branches.) -/
def do_retrieve (H : List Nat → List Nat) (S input : List Nat) (isTTY : Bool) : ProcResult :=
  if isTTY then
    ⟨[], some "ERROR (retrieve): block_output_stream is a tty - will not write binary data to terminal"⟩
  else
    let r := retrieveRun H S input initRetSt
    match r.outcome with
    | ROutcome.finished => ⟨encodeDataRecords r.out ++ tagDone, none⟩
    | ROutcome.incomplete msg => ⟨encodeDataRecords r.out, some ("ERROR (retrieve): " ++ msg)⟩
    | ROutcome.assertFailed =>
      ⟨encodeDataRecords r.out, some "ERROR (retrieve): Collected exceptions: AssertionError()"⟩
    | ROutcome.unknownCommand _ =>
      ⟨encodeDataRecords r.out, some "ERROR (retrieve): Collected exceptions: Exception('Unknown command received')"⟩

/-- The command loop of `do_save`: consume `data(pos, len, payload)` records,
writing each payload at its position, until `done` (exit 0) or a short read
(exit non-zero via `IncompleteReadError`) or an unknown command (exit
non-zero).  Returns the destination file contents and the exit condition;
the file keeps the writes made before a failure. -/
def saveRunAux : Nat → List Nat → List Nat → List Nat × Option String
  | 0, _, D => (D, some "ERROR (save): out of fuel (unreachable)")
  | fuel + 1, input, D =>
    let cmd := input.take 4
    if cmd = [] then
      (D, some "ERROR (save): The block input stream was closed unexpectedly without receiving the `done` command")
    else if cmd.length ≠ 4 then
      (D, some "ERROR (save): Incomplete read of command from block input stream")
    else if cmd = tagDone then (D, none)
    else if cmd = tagData then
      let posB := (input.drop 4).take 8
      let sizeB := (input.drop 12).take 4
      if posB.length ≠ 8 ∨ sizeB.length ≠ 4 then
        (D, some "ERROR (save): Incomplete read of block position and size from block input stream")
      else
        let l := decBE sizeB
        let d := (input.drop 16).take l
        if d.length ≠ l then
          (D, some "ERROR (save): Incomplete read of block data from block input stream")
        else saveRunAux fuel (input.drop (16 + l)) (fwrite D (decBE posB) d)
    else (D, some "ERROR (save): Unknown command received")

/-- `do_save(file_path, block_input_stream)` with destination file `D`
(opened `r+b`: read/write, no truncation).  Each loop iteration consumes at
least 4 bytes of `input`, so `input.length + 1` fuel always suffices. -/
def do_save (D input : List Nat) : List Nat × Option String :=
  saveRunAux (input.length + 1) input D

/-- A concrete injective stand-in for SHA3-512 used by witnesses: digest =
the `Encodable` code of the input followed by 63 zero bytes. -/
def mockHash (b : List Nat) : List Nat :=
  Encodable.encode b :: List.replicate 63 0

/-- The option strings `main()`'s `ArgumentParser` declares (argparse adds
`-h`/`--help` automatically; the code adds only `-v`/`--verbose`). -/
def main_option_strings : List String := ["-h", "--help", "-v", "--verbose"]

/-- Modelled argparse option recognition: an argument is recognized if it is
a declared option string or an unambiguous prefix of a declared long option
(argparse abbreviation matching).  Comparisons work on the character lists of
the strings. -/
def recognizedOption (a : String) : Bool :=
  main_option_strings.any (fun d => d.data == a.data) ||
    ("--".data.isPrefixOf a.data &&
      (main_option_strings.filter
        (fun d => "--".data.isPrefixOf d.data && a.data.isPrefixOf d.data)).length == 1)

/-- What `blockcopy.py --version` does, modelled from `main()`: if the parser
recognized `--version` it would print `blockcopy 0.0.2\n` and exit 0 (the
behaviour `tests/test_version.py` asserts); since the parser declares no such
option, argparse exits with status 2 and writes nothing to stdout.  The pair
is `(stdout, exit status)`. -/
def mainVersionRun : String × Nat :=
  if recognizedOption "--version" then ("blockcopy 0.0.2\n", 0) else ("", 2)

/-- The blocks `bs` are contiguous starting at `pos`: each block starts where
the previous one ended. -/
def chainFrom : Nat → List (Nat × List Nat) → Prop
  | _, [] => True
  | p, b :: r => b.1 = p ∧ chainFrom (p + b.2.length) r

/-- The `hash_batch` entries `do_retrieve.read_worker` accumulates when fed
one `Hash` record per block of `bs` (destination digests computed by `H` on
the block data, source reads from `S`): a full source read is batched with
the digest, a short nonempty read without it, an empty read is dropped. -/
def entriesFor (H : List Nat → List Nat) (S : List Nat)
    (bs : List (Nat × List Nat)) : List BatchEntry :=
  bs.filterMap fun b =>
    let d := fread S b.1 b.2.length
    if d.length = b.2.length then some (some (H b.2), b.1, d)
    else if d = [] then none
    else some (none, b.1, d)

/-- Well-formed hash-stream records: integer fields fit their wire width and
digests are 64 bytes, so that parsing the encoding recovers the record. -/
def wfItem : HashItem → Prop
  | HashItem.hashRec p l dh => p < 256 ^ 8 ∧ l < 256 ^ 4 ∧ dh.length = hash_digest_size
  | HashItem.restRec e => e < 256 ^ 8
  | HashItem.doneRec => True

/-- The `(block_pos, block_len)` pairs of the `Hash` records of a hash
stream. -/
def hashEntriesOf (items : List HashItem) : List (Nat × Nat) :=
  items.filterMap fun it =>
    match it with
    | HashItem.hashRec p l _ => some (p, l)
    | _ => none

/-- Is this hash-stream record a `Hash` record? -/
def isHashRec : HashItem → Prop
  | HashItem.hashRec _ _ _ => True
  | _ => False

/-- The intended contents of the destination after a full sync of the block
range `[0, D.length)`: source bytes where the source reaches, original
destination bytes beyond the end of the source. -/
def syncTarget (S D : List Nat) : List Nat :=
  S.take (min S.length D.length) ++ D.drop (min S.length D.length)

/-! ## Byte-level encoding lemmas -/

theorem encBE_length (w n : Nat) : (encBE w n).length = w := by
  induction w generalizing n with
  | zero => rfl
  | succ w ih => simp [encBE, ih]

theorem decBE_append_single (l : List Nat) (b : Nat) :
    decBE (l ++ [b]) = 256 * decBE l + b := by
  simp [decBE, List.foldl_append]

theorem decBE_encBE (w n : Nat) (h : n < 256 ^ w) : decBE (encBE w n) = n := by
  induction w generalizing n with
  | zero =>
    have : n = 0 := by simpa using h
    simp [this, encBE, decBE]
  | succ w ih =>
    have hdiv : n / 256 < 256 ^ w := by
      rw [Nat.div_lt_iff_lt_mul (by norm_num)]
      calc n < 256 ^ (w + 1) := h
        _ = 256 ^ w * 256 := by ring
    rw [encBE, decBE_append_single, ih _ hdiv]
    exact Nat.div_add_mod n 256

/-! ## File read/write lemmas -/

theorem fread_length (f : List Nat) (pos n : Nat) :
    (fread f pos n).length = min n (f.length - pos) := by
  simp [fread]

theorem fread_getElem? (f : List Nat) (pos n i : Nat) (h : i < n) :
    (fread f pos n)[i]? = f[pos + i]? := by
  rw [fread, List.getElem?_take_of_lt h, List.getElem?_drop]

theorem fread_eq_nil_iff (f : List Nat) (pos n : Nat) :
    fread f pos n = [] ↔ n = 0 ∨ f.length ≤ pos := by
  constructor
  · intro h
    have := congrArg List.length h
    rw [fread_length] at this
    simp only [List.length_nil] at this
    omega
  · intro h
    have : (fread f pos n).length = 0 := by rw [fread_length]; omega
    exact List.length_eq_zero.mp this

theorem fread_full (f : List Nat) (pos n : Nat) (h : pos + n ≤ f.length) :
    (fread f pos n).length = n := by
  rw [fread_length]; omega

theorem fwrite_nil (f : List Nat) (pos : Nat) : fwrite f pos [] = f := by
  simp [fwrite]

theorem fwrite_length (f : List Nat) (pos : Nat) (d : List Nat) :
    (fwrite f pos d).length = if d = [] then f.length else max f.length (pos + d.length) := by
  by_cases hd : d = []
  · simp [fwrite, hd]
  · simp only [fwrite, hd, if_false, List.length_append, List.length_take,
      List.length_replicate, List.length_drop]
    omega

theorem fwrite_length_interior (f : List Nat) (pos : Nat) (d : List Nat)
    (h : pos + d.length ≤ f.length) : (fwrite f pos d).length = f.length := by
  rw [fwrite_length]; split <;> omega

theorem fwrite_length_le (f : List Nat) (pos : Nat) (d : List Nat) :
    f.length ≤ (fwrite f pos d).length := by
  rw [fwrite_length]; split <;> omega

theorem fwrite_getElem?_left (f : List Nat) (pos : Nat) (d : List Nat) (i : Nat)
    (h1 : i < pos) (h2 : i < f.length) : (fwrite f pos d)[i]? = f[i]? := by
  by_cases hd : d = []
  · simp [fwrite, hd]
  · simp only [fwrite, hd, if_false]
    rw [List.append_assoc, List.append_assoc,
      List.getElem?_append_left (by simp; omega)]
    exact List.getElem?_take_of_lt h1

theorem fwrite_getElem?_pad (f : List Nat) (pos : Nat) (d : List Nat) (i : Nat)
    (h1 : f.length ≤ i) (h2 : i < pos) (hd : d ≠ []) : (fwrite f pos d)[i]? = some 0 := by
  have hfp : f.take pos = f := List.take_of_length_le (by omega)
  simp only [fwrite, hd, if_false, hfp]
  rw [List.append_assoc, List.append_assoc,
    List.getElem?_append_right (by omega),
    List.getElem?_append_left (by simp; omega), List.getElem?_replicate]
  have : i - f.length < pos - f.length := by omega
  simp [this]

theorem fwrite_getElem?_mid (f : List Nat) (pos : Nat) (d : List Nat) (i : Nat)
    (h1 : pos ≤ i) (h2 : i < pos + d.length) : (fwrite f pos d)[i]? = d[i - pos]? := by
  have hd : d ≠ [] := by
    intro h; subst h; simp at h2; omega
  simp only [fwrite, hd, if_false]
  have hpre : (f.take pos ++ List.replicate (pos - f.length) 0).length = pos := by
    simp; omega
  rw [List.append_assoc, List.getElem?_append_right (by rw [hpre]; omega), hpre,
    List.getElem?_append_left (by omega)]

theorem fwrite_getElem?_right (f : List Nat) (pos : Nat) (d : List Nat) (i : Nat)
    (h : pos + d.length ≤ i) : (fwrite f pos d)[i]? = f[i]? := by
  by_cases hd : d = []
  · simp [fwrite, hd]
  · simp only [fwrite, hd, if_false]
    have hpre : (f.take pos ++ List.replicate (pos - f.length) 0 ++ d).length
        = pos + d.length := by simp; omega
    rw [List.getElem?_append_right (by rw [hpre]; omega), hpre, List.getElem?_drop]
    have : pos + d.length + (i - (pos + d.length)) = i := by omega
    rw [this]

/-! ## checksum read-loop lemmas -/

theorem readLen_le (endOff : Option Nat) (pos : Nat) : readLen endOff pos ≤ block_size := by
  unfold readLen
  cases endOff with
  | none => exact le_rfl
  | some e =>
    by_cases h : e ≤ pos
    · simp [h]
    · simp only [h, if_false]
      exact min_le_left _ _

theorem readLen_none (pos : Nat) : readLen none pos = block_size := rfl

theorem drop_min_length (l : List Nat) (n : Nat) : l.drop (min n l.length) = l.drop n := by
  rcases le_total n l.length with h | h
  · rw [min_eq_left h]
  · rw [min_eq_right h, List.drop_length, List.drop_eq_nil_of_le h]

theorem fread_cons_drop (X : List Nat) (pos n : Nat) :
    fread X pos n ++ X.drop (pos + (fread X pos n).length) = X.drop pos := by
  have h1 : X.drop (pos + (fread X pos n).length) = (X.drop pos).drop n := by
    rw [List.drop_drop, fread_length]
    rcases le_or_lt n (X.length - pos) with h | h
    · rw [min_eq_left h]
    · rw [min_eq_right (by omega)]
      rw [List.drop_eq_nil_of_le (by omega), List.drop_eq_nil_of_le (by omega)]
  rw [h1, fread]
  exact List.take_append_drop n (X.drop pos)

theorem checksumReadAux_fst_ne_nil (D : List Nat) (endOff : Option Nat) (fuel p : Nat)
    (h : (checksumReadAux D endOff fuel p).1 ≠ []) : fread D p (readLen endOff p) ≠ [] := by
  cases fuel with
  | zero => simp [checksumReadAux] at h
  | succ g =>
    by_cases hd : fread D p (readLen endOff p) = []
    · simp [checksumReadAux, hd] at h
    · exact hd

theorem readLen_next_full (endOff : Option Nat) (pos len : Nat) (h0 : 0 < len)
    (hlen : len = readLen endOff pos) (hne : readLen endOff (pos + len) ≠ 0) :
    readLen endOff pos = block_size := by
  cases endOff with
  | none => exact readLen_none pos
  | some e =>
    unfold readLen at hlen hne ⊢
    by_cases he : e ≤ pos
    · simp [he] at hlen
      omega
    · simp only [he, if_false] at hlen ⊢
      by_cases hee : e ≤ pos + len
      · simp [hee] at hne
      · omega

theorem checksumReadAux_spec (D : List Nat) (endOff : Option Nat) :
    ∀ fuel pos, D.length < fuel + pos →
      chainFrom pos (checksumReadAux D endOff fuel pos).1 ∧
      (∀ b ∈ (checksumReadAux D endOff fuel pos).1,
        0 < b.2.length ∧ b.2.length ≤ block_size) ∧
      List.Chain' (fun a _ => a.2.length = block_size) (checksumReadAux D endOff fuel pos).1 ∧
      (checksumReadAux D endOff fuel pos).2
        = pos + ((checksumReadAux D endOff fuel pos).1.map (fun b => b.2.length)).sum := by
  intro fuel
  induction fuel with
  | zero =>
    intro pos _
    simp [checksumReadAux, chainFrom]
  | succ fuel ih =>
    intro pos hpos
    by_cases hd : fread D pos (readLen endOff pos) = []
    · refine ⟨?_, ?_, ?_, ?_⟩ <;> simp [checksumReadAux, hd, chainFrom]
    · have hdlen : 0 < (fread D pos (readLen endOff pos)).length :=
        List.length_pos.mpr hd
      have hrec := ih (pos + (fread D pos (readLen endOff pos)).length) (by omega)
      have hfull : (checksumReadAux D endOff fuel
          (pos + (fread D pos (readLen endOff pos)).length)).1 ≠ [] →
          (fread D pos (readLen endOff pos)).length = block_size := by
        intro hne
        have hread := checksumReadAux_fst_ne_nil D endOff fuel _ hne
        have hread' : ¬(readLen endOff (pos + (fread D pos (readLen endOff pos)).length) = 0
            ∨ D.length ≤ pos + (fread D pos (readLen endOff pos)).length) :=
          fun hc => hread ((fread_eq_nil_iff _ _ _).mpr hc)
        push_neg at hread'
        obtain ⟨hn', hp'⟩ := hread'
        -- the first read was maximal: the recursion read further, so the file
        -- did not run out, hence the read returned all `readLen` bytes
        have hdn : (fread D pos (readLen endOff pos)).length = readLen endOff pos := by
          rw [fread_length] at hp' hdlen ⊢
          omega
        -- and the requested length was not clipped by `end_offset`
        rw [hdn]
        exact readLen_next_full endOff pos _ hdlen hdn hn'
      rw [show checksumReadAux D endOff (fuel + 1) pos
          = ((pos, fread D pos (readLen endOff pos)) ::
              (checksumReadAux D endOff fuel
                (pos + (fread D pos (readLen endOff pos)).length)).1,
             (checksumReadAux D endOff fuel
                (pos + (fread D pos (readLen endOff pos)).length)).2) by
        simp [checksumReadAux, hd]]
      obtain ⟨ihchain, ihmem, ihfull, ihsum⟩ := hrec
      refine ⟨⟨rfl, ihchain⟩, ?_, ?_, ?_⟩
      · intro b hb
        rcases List.mem_cons.mp hb with h | h
        · subst h
          exact ⟨hdlen, le_trans (by rw [fread_length]; omega) (readLen_le endOff pos)⟩
        · exact ihmem b h
      · rw [List.chain'_cons']
        refine ⟨?_, ihfull⟩
        intro b hb
        apply hfull
        intro hnil
        rw [hnil] at hb
        simp at hb
      · simp only [List.map_cons, List.sum_cons]
        omega

theorem checksumReadAux_none_flatten (D : List Nat) :
    ∀ fuel pos, D.length < fuel + pos →
      ((checksumReadAux D none fuel pos).1.map Prod.snd).flatten = D.drop pos ∧
      (checksumReadAux D none fuel pos).2 = pos + (D.drop pos).length := by
  intro fuel
  induction fuel with
  | zero =>
    intro pos h
    have : D.drop pos = [] := List.drop_eq_nil_of_le (by omega)
    simp [checksumReadAux, this]
  | succ fuel ih =>
    intro pos hpos
    by_cases hd : fread D pos (readLen none pos) = []
    · rw [fread_eq_nil_iff] at hd
      have hbs : block_size ≠ 0 := by simp [block_size]
      rw [readLen_none] at hd
      have hple : D.length ≤ pos := by omega
      have hnil : D.drop pos = [] := List.drop_eq_nil_of_le hple
      have hd' : fread D pos (readLen none pos) = [] := by
        rw [fread_eq_nil_iff]; right; exact hple
      simp [checksumReadAux, hd', hnil]
    · have hdlen : 0 < (fread D pos (readLen none pos)).length := List.length_pos.mpr hd
      have hrec := ih (pos + (fread D pos (readLen none pos)).length) (by omega)
      rw [show checksumReadAux D none (fuel + 1) pos
          = ((pos, fread D pos (readLen none pos)) ::
              (checksumReadAux D none fuel
                (pos + (fread D pos (readLen none pos)).length)).1,
             (checksumReadAux D none fuel
                (pos + (fread D pos (readLen none pos)).length)).2) by
        simp [checksumReadAux, hd]]
      obtain ⟨ihflat, ihsnd⟩ := hrec
      constructor
      · simp only [List.map_cons, List.flatten_cons, ihflat]
        exact fread_cons_drop D pos (readLen none pos)
      · rw [ihsnd]
        have hle : (fread D pos (readLen none pos)).length ≤ D.length - pos := by
          rw [fread_length]; omega
        simp only [List.length_drop]
        omega

theorem checksumReadAux_none_blocks (D : List Nat) :
    ∀ fuel pos, ∀ b ∈ (checksumReadAux D none fuel pos).1,
      b.2 = fread D b.1 block_size ∧ 0 < b.2.length ∧
      b.1 + b.2.length ≤ D.length ∧ pos ≤ b.1 := by
  intro fuel
  induction fuel with
  | zero => intro pos b hb; simp [checksumReadAux] at hb
  | succ fuel ih =>
    intro pos b hb
    by_cases hd : fread D pos (readLen none pos) = []
    · simp [checksumReadAux, hd] at hb
    · rw [show checksumReadAux D none (fuel + 1) pos
          = ((pos, fread D pos (readLen none pos)) ::
              (checksumReadAux D none fuel
                (pos + (fread D pos (readLen none pos)).length)).1,
             (checksumReadAux D none fuel
                (pos + (fread D pos (readLen none pos)).length)).2) by
        simp [checksumReadAux, hd]] at hb
      rcases List.mem_cons.mp hb with h | h
      · subst h
        have hplt : pos < D.length := by
          rcases (fread_eq_nil_iff D pos (readLen none pos)).not.mp hd with h'
          push_neg at h'
          omega
        refine ⟨by rw [readLen_none], List.length_pos.mpr hd, ?_, le_rfl⟩
        rw [fread_length, readLen_none]
        omega
      · have := ih _ b h
        exact ⟨this.1, this.2.1, this.2.2.1, le_trans (by omega) this.2.2.2⟩

/-! ## applyWrites lemmas -/

theorem applyWrites_nil (f : List Nat) : applyWrites f [] = f := rfl

theorem applyWrites_cons (f : List Nat) (w : Nat × List Nat) (ws : List (Nat × List Nat)) :
    applyWrites f (w :: ws) = applyWrites (fwrite f w.1 w.2) ws := rfl

theorem applyWrites_cons_pair (f : List Nat) (p : Nat) (d : List Nat)
    (ws : List (Nat × List Nat)) :
    applyWrites f ((p, d) :: ws) = applyWrites (fwrite f p d) ws := rfl

theorem applyWrites_append (f : List Nat) (ws1 ws2 : List (Nat × List Nat)) :
    applyWrites f (ws1 ++ ws2) = applyWrites (applyWrites f ws1) ws2 :=
  List.foldl_append ..

theorem applyWrites_length_le (f : List Nat) (ws : List (Nat × List Nat)) :
    f.length ≤ (applyWrites f ws).length := by
  induction ws generalizing f with
  | nil => exact le_rfl
  | cons w ws ih => exact le_trans (fwrite_length_le f w.1 w.2) (ih (fwrite f w.1 w.2))

theorem applyWrites_interior_length (f : List Nat) (ws : List (Nat × List Nat))
    (h : ∀ w ∈ ws, w.1 + w.2.length ≤ f.length) : (applyWrites f ws).length = f.length := by
  induction ws generalizing f with
  | nil => rfl
  | cons w ws ih =>
    have hw := h w (List.mem_cons_self w ws)
    have hlen := fwrite_length_interior f w.1 w.2 hw
    rw [applyWrites_cons,
      ih (fwrite f w.1 w.2) (fun v hv => by rw [hlen]; exact h v (List.mem_cons_of_mem w hv)),
      hlen]

theorem fwrite_append_eod (f : List Nat) (d : List Nat) : fwrite f f.length d = f ++ d := by
  by_cases hd : d = []
  · simp [fwrite, hd]
  · simp [fwrite, hd, List.drop_eq_nil_of_le (Nat.le_add_right f.length d.length)]

theorem checksumReadAux_cons (D : List Nat) (endOff : Option Nat) (fuel pos : Nat)
    (hd : fread D pos (readLen endOff pos) ≠ []) :
    checksumReadAux D endOff (fuel + 1) pos
      = ((pos, fread D pos (readLen endOff pos)) ::
          (checksumReadAux D endOff fuel (pos + (fread D pos (readLen endOff pos)).length)).1,
         (checksumReadAux D endOff fuel (pos + (fread D pos (readLen endOff pos)).length)).2) := by
  simp [checksumReadAux, hd]

theorem applyWrites_chunks (X : List Nat) :
    ∀ fuel pos F, X.length < fuel + pos → F.length = pos →
      applyWrites F (checksumReadAux X none fuel pos).1 = F ++ X.drop pos := by
  intro fuel
  induction fuel with
  | zero =>
    intro pos F hfuel _
    have hnil : X.drop pos = [] := List.drop_eq_nil_of_le (by omega)
    simp [checksumReadAux, hnil, applyWrites_nil]
  | succ fuel ih =>
    intro pos F hfuel hF
    by_cases hd : fread X pos (readLen none pos) = []
    · have h1 : X.drop pos = [] := by
        rcases (fread_eq_nil_iff X pos (readLen none pos)).mp hd with h | h
        · rw [readLen_none] at h
          exact absurd h (by simp [block_size])
        · exact List.drop_eq_nil_of_le h
      simp [checksumReadAux, hd, h1, applyWrites_nil]
    · have hdlen : 0 < (fread X pos (readLen none pos)).length := List.length_pos.mpr hd
      rw [checksumReadAux_cons X none fuel pos hd, applyWrites_cons_pair]
      have hfw : fwrite F pos (fread X pos (readLen none pos))
          = F ++ fread X pos (readLen none pos) := by
        rw [← hF]
        exact fwrite_append_eod F _
      rw [hfw,
        ih (pos + (fread X pos (readLen none pos)).length)
          (F ++ fread X pos (readLen none pos)) (by omega) (by simp [hF]),
        List.append_assoc]
      congr 1
      exact fread_cons_drop X pos (readLen none pos)

theorem fwrite_comm (f : List Nat) (p : Nat) (d : List Nat) (q : Nat) (e : List Nat)
    (hq : p + d.length ≤ q) (hf : p + d.length ≤ f.length) :
    fwrite (fwrite f q e) p d = fwrite (fwrite f p d) q e := by
  by_cases hd : d = []
  · simp [hd, fwrite_nil]
  by_cases he : e = []
  · simp [he, fwrite_nil]
  have hdpos : 0 < d.length := List.length_pos.mpr hd
  have hlen_pd : (fwrite f p d).length = f.length := fwrite_length_interior f p d hf
  have hlen_qe : (fwrite f q e).length = max f.length (q + e.length) := by
    rw [fwrite_length]
    simp [he]
  apply List.ext_getElem?
  intro x
  rcases lt_or_le x p with hx1 | hx1
  · have hxf : x < f.length := by omega
    rw [fwrite_getElem?_left (fwrite f q e) p d x hx1 (by omega),
      fwrite_getElem?_left f q e x (by omega) hxf,
      fwrite_getElem?_left (fwrite f p d) q e x (by omega) (by omega),
      fwrite_getElem?_left f p d x hx1 hxf]
  · rcases lt_or_le x (p + d.length) with hx2 | hx2
    · rw [fwrite_getElem?_mid (fwrite f q e) p d x hx1 hx2,
        fwrite_getElem?_left (fwrite f p d) q e x (by omega) (by omega),
        fwrite_getElem?_mid f p d x hx1 hx2]
    · rw [fwrite_getElem?_right (fwrite f q e) p d x hx2]
      rcases lt_or_le x q with hx3 | hx3
      · rcases lt_or_le x f.length with hx4 | hx4
        · rw [fwrite_getElem?_left f q e x hx3 hx4,
            fwrite_getElem?_left (fwrite f p d) q e x hx3 (by omega),
            fwrite_getElem?_right f p d x hx2]
        · rw [fwrite_getElem?_pad f q e x hx4 hx3 he,
            fwrite_getElem?_pad (fwrite f p d) q e x (by omega) hx3 he]
      · rcases lt_or_le x (q + e.length) with hx5 | hx5
        · rw [fwrite_getElem?_mid f q e x hx3 hx5,
            fwrite_getElem?_mid (fwrite f p d) q e x hx3 hx5]
        · rw [fwrite_getElem?_right f q e x hx5,
            fwrite_getElem?_right (fwrite f p d) q e x hx5,
            fwrite_getElem?_right f p d x hx2]

theorem applyWrites_fwrite_comm (f : List Nat) (p : Nat) (d : List Nat)
    (R : List (Nat × List Nat)) (L : Nat)
    (hR : ∀ r ∈ R, L ≤ r.1) (hpd : p + d.length ≤ L) (hfL : L ≤ f.length) :
    fwrite (applyWrites f R) p d = applyWrites (fwrite f p d) R := by
  induction R generalizing f with
  | nil => rfl
  | cons r R ih =>
    rw [applyWrites_cons, applyWrites_cons,
      ih (fwrite f r.1 r.2) (fun v hv => hR v (List.mem_cons_of_mem r hv))
        (le_trans hfL (fwrite_length_le f r.1 r.2)),
      fwrite_comm f p d r.1 r.2 (le_trans hpd (hR r (List.mem_cons_self r R)))
        (le_trans hpd hfL)]

theorem applyWrites_comm_lists (f : List Nat) (B R : List (Nat × List Nat)) (L : Nat)
    (hB : ∀ b ∈ B, b.1 + b.2.length ≤ L) (hR : ∀ r ∈ R, L ≤ r.1) (hfL : L ≤ f.length) :
    applyWrites (applyWrites f R) B = applyWrites (applyWrites f B) R := by
  induction B generalizing f with
  | nil => rfl
  | cons b B ih =>
    rw [applyWrites_cons,
      applyWrites_fwrite_comm f b.1 b.2 R L hR (hB b (List.mem_cons_self b B)) hfL,
      ih (fwrite f b.1 b.2) (fun v hv => hB v (List.mem_cons_of_mem b hv))
        (le_trans hfL (fwrite_length_le f b.1 b.2)),
      applyWrites_cons]

/-! ## The hash phase of retrieve applied to save: block-by-block induction -/

theorem syncTarget_length (S D : List Nat) : (syncTarget S D).length = D.length := by
  rw [syncTarget, List.length_append, List.length_take, List.length_drop]
  omega

theorem syncTarget_getElem?_left (S D : List Nat) (x : Nat) (hx : x < min S.length D.length) :
    (syncTarget S D)[x]? = S[x]? := by
  rw [syncTarget, List.getElem?_append_left (by simp; omega)]
  exact List.getElem?_take_of_lt (by omega)

theorem syncTarget_getElem?_right (S D : List Nat) (x : Nat) (hx : min S.length D.length ≤ x) :
    (syncTarget S D)[x]? = D[x]? := by
  by_cases hxD : x < D.length
  · rw [syncTarget, List.getElem?_append_right (by simp; omega), List.getElem?_drop]
    have h1 : (S.take (min S.length D.length)).length = min S.length D.length := by
      rw [List.length_take]
      omega
    have h2 : min S.length D.length + (x - (S.take (min S.length D.length)).length) = x := by
      rw [h1]
      omega
    rw [h2]
  · rw [List.getElem?_eq_none (by rw [syncTarget_length]; omega),
      List.getElem?_eq_none (by omega)]

theorem fread_getElem?_src (S : List Nat) (pos n i : Nat) (hi : i < (fread S pos n).length) :
    (fread S pos n)[i]? = S[pos + i]? := by
  apply fread_getElem?
  rw [fread_length] at hi
  omega

theorem blockDecision_eq (H : List Nat → List Nat) (S : List Nat) (pos : Nat) (d : List Nat) :
    filterBatch H (entriesFor H S [(pos, d)])
      = if (fread S pos d.length).length = d.length then
          (if H (fread S pos d.length) = H d then [] else [(pos, fread S pos d.length)])
        else if fread S pos d.length = [] then [] else [(pos, fread S pos d.length)] := by
  by_cases h1 : (fread S pos d.length).length = d.length
  · by_cases h2 : H (fread S pos d.length) = H d <;>
      simp [entriesFor, filterBatch, h1, h2]
  · by_cases h2 : fread S pos d.length = []
    · have h1' : d.length ≠ 0 := by
        intro h0
        apply h1
        rw [h2, h0]
        rfl
      simp [entriesFor, filterBatch, h1, h2, h1', Ne.symm h1']
    · simp [entriesFor, filterBatch, h1, h2]

theorem blockDecision_sub (H : List Nat → List Nat) (S : List Nat) (pos : Nat) (d : List Nat)
    (w : Nat × List Nat) (hw : w ∈ filterBatch H (entriesFor H S [(pos, d)])) :
    w.1 = pos ∧ w.2 = fread S pos d.length := by
  rw [blockDecision_eq] at hw
  have hw' : w = (pos, fread S pos d.length) := by
    split at hw
    · split at hw
      · exact absurd hw (List.not_mem_nil w)
      · simpa using hw
    · split at hw
      · exact absurd hw (List.not_mem_nil w)
      · simpa using hw
  subst hw'
  exact ⟨rfl, rfl⟩

theorem blockStep_length (H : List Nat → List Nat) (S D : List Nat) (pos : Nat)
    (F d : List Nat) (hFlen : F.length = D.length) (hdle : pos + d.length ≤ D.length) :
    (applyWrites F (filterBatch H (entriesFor H S [(pos, d)]))).length = D.length := by
  rw [applyWrites_interior_length _ _ ?_, hFlen]
  intro w hw
  obtain ⟨h1, h2⟩ := blockDecision_sub H S pos d w hw
  rw [h1, h2, hFlen, fread_length]
  omega

theorem blockStep_right (H : List Nat → List Nat) (S D : List Nat) (pos : Nat)
    (F d : List Nat) (hFlen : F.length = D.length) (hdle : pos + d.length ≤ D.length)
    (hFright : ∀ x : Nat, pos ≤ x → F[x]? = D[x]?) :
    ∀ x : Nat, pos + d.length ≤ x →
      (applyWrites F (filterBatch H (entriesFor H S [(pos, d)])))[x]? = D[x]? := by
  intro x hx
  rw [blockDecision_eq]
  have hsingle : (applyWrites F [(pos, fread S pos d.length)])[x]? = D[x]? := by
    rw [applyWrites_cons_pair, applyWrites_nil,
      fwrite_getElem?_right F pos _ x (by rw [fread_length]; omega)]
    exact hFright x (by omega)
  have hempty : (applyWrites F ([] : List (Nat × List Nat)))[x]? = D[x]? := by
    rw [applyWrites_nil]
    exact hFright x (by omega)
  split
  · split
    · exact hempty
    · exact hsingle
  · split
    · exact hempty
    · exact hsingle

theorem blockStep_left (H : List Nat → List Nat) (hInj : Function.Injective H)
    (S D : List Nat) (pos : Nat) (F d : List Nat)
    (hd_eq : d = fread D pos (readLen none pos))
    (hdlen : 0 < d.length) (hFlen : F.length = D.length)
    (hdle : pos + d.length ≤ D.length)
    (hFright : ∀ x : Nat, pos ≤ x → F[x]? = D[x]?)
    (hFleft : ∀ x : Nat, x < pos → F[x]? = (syncTarget S D)[x]?) :
    ∀ x : Nat, x < pos + d.length →
      (applyWrites F (filterBatch H (entriesFor H S [(pos, d)])))[x]?
        = (syncTarget S D)[x]? := by
  intro x hx
  have hposD : pos < D.length := by omega
  have hdD : ∀ i : Nat, i < d.length → d[i]? = D[pos + i]? := by
    intro i hi
    conv_lhs => rw [hd_eq]
    apply fread_getElem?_src
    rw [← hd_eq]
    exact hi
  have hsdlen : (fread S pos d.length).length = min d.length (S.length - pos) :=
    fread_length S pos d.length
  have hsdS : ∀ i : Nat, i < (fread S pos d.length).length →
      (fread S pos d.length)[i]? = S[pos + i]? := fun i hi => fread_getElem?_src S pos _ i hi
  rw [blockDecision_eq]
  by_cases hfull : (fread S pos d.length).length = d.length
  · have hSle : pos + d.length ≤ S.length := by omega
    rw [if_pos hfull]
    by_cases heq : H (fread S pos d.length) = H d
    · -- digests match: the block is skipped, but source and destination agree there
      have hsd_d : fread S pos d.length = d := hInj heq
      rw [if_pos heq, applyWrites_nil]
      rcases lt_or_le x pos with hxp | hxp
      · exact hFleft x hxp
      · rw [hFright x hxp, ← show pos + (x - pos) = x from by omega, ← hdD (x - pos) (by omega),
          ← hsd_d, hsdS (x - pos) (by omega),
          show pos + (x - pos) = x from by omega]
        exact (syncTarget_getElem?_left S D x (by omega)).symm
    · -- digests differ: the source block is written
      rw [if_neg heq, applyWrites_cons_pair, applyWrites_nil]
      rcases lt_or_le x pos with hxp | hxp
      · rw [fwrite_getElem?_left F pos _ x hxp (by omega)]
        exact hFleft x hxp
      · rw [fwrite_getElem?_mid F pos _ x hxp (by omega),
          hsdS (x - pos) (by omega), show pos + (x - pos) = x from by omega]
        exact (syncTarget_getElem?_left S D x (by omega)).symm
  · rw [if_neg hfull]
    by_cases hnil : fread S pos d.length = []
    · -- source exhausted before this block: nothing sent, destination keeps its bytes
      have hSle : S.length ≤ pos := by
        rcases (fread_eq_nil_iff S pos d.length).mp hnil with h | h
        · omega
        · exact h
      rw [if_pos hnil, applyWrites_nil]
      rcases lt_or_le x pos with hxp | hxp
      · exact hFleft x hxp
      · rw [hFright x hxp]
        exact (syncTarget_getElem?_right S D x (by omega)).symm
    · -- short read at end of source: the partial block is written unconditionally
      have hposS : pos < S.length := by
        have hc' : ¬(d.length = 0 ∨ S.length ≤ pos) :=
          fun hc => hnil ((fread_eq_nil_iff S pos d.length).mpr hc)
        push_neg at hc'
        omega
      have hks : pos + (fread S pos d.length).length = S.length := by omega
      have hSlt : S.length < pos + d.length := by omega
      rw [if_neg hnil, applyWrites_cons_pair, applyWrites_nil]
      rcases lt_or_le x pos with hxp | hxp
      · rw [fwrite_getElem?_left F pos _ x hxp (by omega)]
        exact hFleft x hxp
      · rcases lt_or_le x (pos + (fread S pos d.length).length) with hxm | hxm
        · rw [fwrite_getElem?_mid F pos _ x hxp hxm,
            hsdS (x - pos) (by omega), show pos + (x - pos) = x from by omega]
          exact (syncTarget_getElem?_left S D x (by omega)).symm
        · rw [fwrite_getElem?_right F pos _ x hxm, hFright x hxp]
          exact (syncTarget_getElem?_right S D x (by omega)).symm

theorem retrieveHashPhase_applyWrites (H : List Nat → List Nat)
    (hInj : Function.Injective H) (S D : List Nat) :
    ∀ fuel pos F, D.length < fuel + pos → F.length = D.length →
      (∀ x : Nat, pos ≤ x → F[x]? = D[x]?) →
      (∀ x : Nat, x < pos → F[x]? = (syncTarget S D)[x]?) →
      applyWrites F (filterBatch H (entriesFor H S (checksumReadAux D none fuel pos).1))
        = syncTarget S D := by
  intro fuel
  induction fuel with
  | zero =>
    intro pos F hfuel hFlen hFright hFleft
    simp only [checksumReadAux, entriesFor, List.filterMap_nil, filterBatch, applyWrites_nil]
    apply List.ext_getElem?
    intro x
    rcases lt_or_le x pos with hx | hx
    · exact hFleft x hx
    · rw [hFright x hx]
      exact (syncTarget_getElem?_right S D x (by omega)).symm
  | succ fuel ih =>
    intro pos F hfuel hFlen hFright hFleft
    by_cases hd : fread D pos (readLen none pos) = []
    · simp only [checksumReadAux, hd, if_true, entriesFor, List.filterMap_nil, filterBatch,
        applyWrites_nil]
      apply List.ext_getElem?
      intro x
      rcases lt_or_le x pos with hx | hx
      · exact hFleft x hx
      · have hple : D.length ≤ pos := by
          rcases (fread_eq_nil_iff D pos (readLen none pos)).mp hd with h | h
          · rw [readLen_none] at h
            exact absurd h (by simp [block_size])
          · exact h
        rw [hFright x hx]
        exact (syncTarget_getElem?_right S D x (by omega)).symm
    · -- one more block `(pos, d)` with `d` nonempty
      have hdlen : 0 < (fread D pos (readLen none pos)).length := List.length_pos.mpr hd
      have hposD : pos < D.length := by
        have : ¬(readLen none pos = 0 ∨ D.length ≤ pos) :=
          fun hc => hd ((fread_eq_nil_iff D pos (readLen none pos)).mpr hc)
        push_neg at this
        omega
      have hdle : pos + (fread D pos (readLen none pos)).length ≤ D.length := by
        rw [fread_length]
        omega
      rw [checksumReadAux_cons D none fuel pos hd]
      -- split off the decision for this block
      rw [show entriesFor H S ((pos, fread D pos (readLen none pos)) ::
            (checksumReadAux D none fuel
              (pos + (fread D pos (readLen none pos)).length)).1)
          = entriesFor H S [(pos, fread D pos (readLen none pos))]
            ++ entriesFor H S (checksumReadAux D none fuel
              (pos + (fread D pos (readLen none pos)).length)).1 by
        simp [entriesFor, ← List.filterMap_append]]
      rw [show filterBatch H (entriesFor H S [(pos, fread D pos (readLen none pos))]
            ++ entriesFor H S (checksumReadAux D none fuel
              (pos + (fread D pos (readLen none pos)).length)).1)
          = filterBatch H (entriesFor H S [(pos, fread D pos (readLen none pos))])
            ++ filterBatch H (entriesFor H S (checksumReadAux D none fuel
              (pos + (fread D pos (readLen none pos)).length)).1) from
        List.filterMap_append _ _ _]
      rw [applyWrites_append]
      apply ih (pos + (fread D pos (readLen none pos)).length)
        (applyWrites F (filterBatch H (entriesFor H S [(pos, fread D pos (readLen none pos))])))
        (by omega)
      -- the three invariants for the updated file
      · exact blockStep_length H S D pos F
          (fread D pos (readLen none pos)) hFlen (by omega)
      · exact blockStep_right H S D pos F (fread D pos (readLen none pos)) hFlen (by omega)
          hFright
      · exact blockStep_left H hInj S D pos F (fread D pos (readLen none pos)) rfl hdlen
          hFlen (by omega) hFright hFleft

/-! ## Record-level behaviour of the retrieve read loop -/

theorem filterBatch_append (H : List Nat → List Nat) (b1 b2 : List BatchEntry) :
    filterBatch H (b1 ++ b2) = filterBatch H b1 ++ filterBatch H b2 :=
  List.filterMap_append ..

theorem stepHash_block (H : List Nat → List Nat) (S : List Nat) (st : RetSt)
    (b : Nat × List Nat) (rest : List BatchEntry) :
    (stepHash H S st b.1 b.2.length (H b.2)).out
      ++ filterBatch H ((stepHash H S st b.1 b.2.length (H b.2)).pending ++ rest)
    = st.out ++ filterBatch H (st.pending ++ entriesFor H S [b] ++ rest) := by
  unfold stepHash
  by_cases hfull : (fread S b.1 b.2.length).length = b.2.length
  · simp only [hfull, if_true]
    have hent : entriesFor H S [b] = [(some (H b.2), b.1, fread S b.1 b.2.length)] := by
      simp [entriesFor, hfull]
    rw [hent]
    unfold procEntry
    split
    · simp [flushBatch, filterBatch_append, List.append_assoc]
      exact (filterBatch_append H [_] rest).symm
    · simp [filterBatch_append, List.append_assoc]
  · simp only [hfull, if_false]
    by_cases hnil : fread S b.1 b.2.length = []
    · have hb0 : b.2.length ≠ 0 := by
        intro h0
        apply hfull
        rw [hnil, h0]
        rfl
      have hent : entriesFor H S [b] = [] := by
        simp [entriesFor, hnil, Ne.symm hb0]
      simp [hent, hnil]
    · have hent : entriesFor H S [b] = [(none, b.1, fread S b.1 b.2.length)] := by
        simp [entriesFor, hfull, hnil]
      simp only [hnil, if_false, ne_eq, not_false_eq_true, if_true, hent]
      unfold procEntry
      split
      · simp [flushBatch, filterBatch_append, List.append_assoc]
        exact (filterBatch_append H [_] rest).symm
      · simp [filterBatch_append, List.append_assoc]

theorem foldl_stepHash_invariant (H : List Nat → List Nat) (S : List Nat)
    (blocks : List (Nat × List Nat)) :
    ∀ st : RetSt,
      (blocks.foldl (fun st b => stepHash H S st b.1 b.2.length (H b.2)) st).out
        ++ filterBatch H
            (blocks.foldl (fun st b => stepHash H S st b.1 b.2.length (H b.2)) st).pending
      = st.out ++ filterBatch H (st.pending ++ entriesFor H S blocks) := by
  induction blocks with
  | nil => intro st; simp [entriesFor]
  | cons b bs ih =>
    intro st
    rw [List.foldl_cons]
    rw [ih (stepHash H S st b.1 b.2.length (H b.2))]
    have h1 := stepHash_block H S st b (entriesFor H S bs)
    rw [h1]
    have h2 : entriesFor H S (b :: bs) = entriesFor H S [b] ++ entriesFor H S bs := by
      simp [entriesFor, ← List.filterMap_append]
    rw [h2, ← List.append_assoc]

theorem retrieveItems_hashList (H : List Nat → List Nat) (S : List Nat)
    (blocks : List (Nat × List Nat)) (tail : List HashItem) :
    ∀ st, retrieveItems H S
        (blocks.map (fun b => HashItem.hashRec b.1 b.2.length (H b.2)) ++ tail) st
      = retrieveItems H S tail
          (blocks.foldl (fun st b => stepHash H S st b.1 b.2.length (H b.2)) st) := by
  induction blocks with
  | nil => intro st; rfl
  | cons b bs ih =>
    intro st
    simp only [List.map_cons, List.cons_append, retrieveItems, List.foldl_cons]
    exact ih (stepHash H S st b.1 b.2.length (H b.2))

theorem filterBatch_entriesFor_mem (H : List Nat → List Nat) (S : List Nat)
    (blocks : List (Nat × List Nat)) (w : Nat × List Nat)
    (hw : w ∈ filterBatch H (entriesFor H S blocks)) :
    ∃ b ∈ blocks, w.1 = b.1 ∧ w.2 = fread S b.1 b.2.length := by
  revert hw
  induction blocks with
  | nil =>
    intro hw
    simp [entriesFor, filterBatch] at hw
  | cons b bs ih =>
    intro hw
    rw [show entriesFor H S (b :: bs) = entriesFor H S [b] ++ entriesFor H S bs from by
        simp [entriesFor, ← List.filterMap_append],
      filterBatch_append] at hw
    rcases List.mem_append.mp hw with h | h
    · exact ⟨b, List.mem_cons_self b bs,
        (blockDecision_sub H S b.1 b.2 w h).1, (blockDecision_sub H S b.1 b.2 w h).2⟩
    · obtain ⟨c, hc, hh⟩ := ih h
      exact ⟨c, List.mem_cons_of_mem b hc, hh⟩

/-! ## Running retrieve on a full checksum stream -/

theorem checksumRead_none_snd (D : List Nat) : (checksumRead D none 0).2 = D.length := by
  have h := (checksumReadAux_none_flatten D (D.length + 1) 0 (by omega)).2
  simpa using h

theorem retrieveItems_checksum (H : List Nat → List Nat) (S D : List Nat) :
    ∃ A B : List (Nat × List Nat),
      A ++ B = filterBatch H (entriesFor H S (checksumRead D none 0).1) ∧
      (retrieveItems H S (checksumRecords H D 0 none true) initRetSt).out
        = A ++ (checksumRead S none D.length).1 ++ B ∧
      (retrieveItems H S (checksumRecords H D 0 none true) initRetSt).outcome
        = ROutcome.finished := by
  refine ⟨((checksumRead D none 0).1.foldl
      (fun st b => stepHash H S st b.1 b.2.length (H b.2)) initRetSt).out,
    filterBatch H ((checksumRead D none 0).1.foldl
      (fun st b => stepHash H S st b.1 b.2.length (H b.2)) initRetSt).pending, ?_, ?_, ?_⟩
  · have h := foldl_stepHash_invariant H S (checksumRead D none 0).1 initRetSt
    simpa [initRetSt] using h
  · rw [show checksumRecords H D 0 none true
        = (checksumRead D none 0).1.map (fun b => HashItem.hashRec b.1 b.2.length (H b.2))
          ++ [HashItem.restRec (checksumRead D none 0).2, HashItem.doneRec] from by
      simp [checksumRecords]]
    rw [retrieveItems_hashList, checksumRead_none_snd]
    simp [retrieveItems, stepRest, flushBatch, List.append_assoc]
  · rw [show checksumRecords H D 0 none true
        = (checksumRead D none 0).1.map (fun b => HashItem.hashRec b.1 b.2.length (H b.2))
          ++ [HashItem.restRec (checksumRead D none 0).2, HashItem.doneRec] from by
      simp [checksumRecords]]
    rw [retrieveItems_hashList]
    simp [retrieveItems]

theorem retrieve_out_applyWrites (H : List Nat → List Nat) (hInj : Function.Injective H)
    (S D : List Nat) :
    applyWrites D (retrieveItems H S (checksumRecords H D 0 none true) initRetSt).out
      = S ++ D.drop S.length := by
  obtain ⟨A, B, hAB, hout, _⟩ := retrieveItems_checksum H S D
  rw [hout]
  have hABmem : ∀ w ∈ A ++ B, w.1 + w.2.length ≤ D.length := by
    intro w hw
    rw [hAB] at hw
    obtain ⟨b, hb, h1, h2⟩ := filterBatch_entriesFor_mem H S _ w hw
    have hbfacts := checksumReadAux_none_blocks D (D.length + 1) 0 b hb
    rw [h1, h2, fread_length]
    omega
  have hR : ∀ r ∈ (checksumRead S none D.length).1, D.length ≤ r.1 := by
    intro r hr
    exact (checksumReadAux_none_blocks S (S.length + 1) D.length r hr).2.2.2
  have hA_mem : ∀ w ∈ A, w.1 + w.2.length ≤ D.length :=
    fun w hw => hABmem w (List.mem_append_left B hw)
  have hB_mem : ∀ w ∈ B, w.1 + w.2.length ≤ D.length :=
    fun w hw => hABmem w (List.mem_append_right A hw)
  have hDA_len : (applyWrites D A).length = D.length := applyWrites_interior_length D A hA_mem
  rw [applyWrites_append, applyWrites_append,
    applyWrites_comm_lists (applyWrites D A) B (checksumRead S none D.length).1 D.length
      hB_mem hR (by omega),
    ← applyWrites_append D A B, hAB]
  have hstage1 : applyWrites D (filterBatch H (entriesFor H S (checksumRead D none 0).1))
      = syncTarget S D :=
    retrieveHashPhase_applyWrites H hInj S D (D.length + 1) 0 D (by omega) rfl
      (fun _ _ => rfl) (fun x hx => absurd hx (Nat.not_lt_zero x))
  rw [hstage1]
  rcases le_or_lt S.length D.length with hle | hlt
  · have hread : fread S D.length (readLen none D.length) = [] :=
      (fread_eq_nil_iff S D.length (readLen none D.length)).mpr (Or.inr hle)
    have hRnil : (checksumRead S none D.length).1 = [] := by
      simp [checksumRead, checksumReadAux, hread]
    rw [hRnil, applyWrites_nil, syncTarget, min_eq_left hle, List.take_length]
  · have hchunks : applyWrites (syncTarget S D) (checksumRead S none D.length).1
        = syncTarget S D ++ S.drop D.length :=
      applyWrites_chunks S (S.length + 1) D.length (syncTarget S D) (by omega)
        (syncTarget_length S D)
    rw [hchunks, syncTarget, min_eq_right (by omega), List.drop_length, List.append_nil,
      List.take_append_drop, List.drop_eq_nil_of_le (by omega), List.append_nil]

/-! ## Parsing an encoded hash stream -/

theorem encodeHashStream_cons (it : HashItem) (rest : List HashItem) :
    encodeHashStream (it :: rest) = encodeHashItem it ++ encodeHashStream rest := by
  simp [encodeHashStream]

theorem retrieveRunAux_encode (H : List Nat → List Nat) (S : List Nat) :
    ∀ (items : List HashItem) (fuel : Nat) (st : RetSt),
      (∀ it ∈ items, wfItem it) →
      (encodeHashStream items).length < fuel →
      retrieveRunAux H S fuel (encodeHashStream items) st = retrieveItems H S items st := by
  intro items
  induction items with
  | nil =>
    intro fuel st _ hfuel
    obtain ⟨g, rfl⟩ : ∃ g, fuel = g + 1 := ⟨fuel - 1, by omega⟩
    simp [encodeHashStream, retrieveRunAux, retrieveItems]
  | cons it rest ih =>
    intro fuel st hwf hfuel
    obtain ⟨g, rfl⟩ : ∃ g, fuel = g + 1 := ⟨fuel - 1, by omega⟩
    rw [encodeHashStream_cons] at hfuel ⊢
    have hwfrest : ∀ it ∈ rest, wfItem it := fun x hx => hwf x (List.mem_cons_of_mem it hx)
    cases it with
    | doneRec =>
      rw [show encodeHashItem HashItem.doneRec = tagDone from rfl]
      simp only [retrieveRunAux]
      rw [List.take_left' (show tagDone.length = 4 from rfl),
        if_neg (by decide : ¬(tagDone = ([] : List Nat))),
        if_neg (by decide : ¬(tagDone.length ≠ 4)),
        if_pos (rfl : tagDone = tagDone)]
      rfl
    | restRec off =>
      have hoff : off < 256 ^ 8 := hwf _ (List.mem_cons_self _ _)
      rw [show encodeHashItem (HashItem.restRec off) = tagRest ++ encBE 8 off from rfl,
        List.append_assoc] at hfuel ⊢
      have ht4 : (tagRest ++ (encBE 8 off ++ encodeHashStream rest)).take 4 = tagRest :=
        List.take_left' rfl
      have hd4 : (tagRest ++ (encBE 8 off ++ encodeHashStream rest)).drop 4
          = encBE 8 off ++ encodeHashStream rest := List.drop_left' rfl
      have ht8 : ((tagRest ++ (encBE 8 off ++ encodeHashStream rest)).drop 4).take 8
          = encBE 8 off := by
        rw [hd4]
        exact List.take_left' (encBE_length 8 off)
      have hd12 : (tagRest ++ (encBE 8 off ++ encodeHashStream rest)).drop 12
          = encodeHashStream rest := by
        rw [show tagRest ++ (encBE 8 off ++ encodeHashStream rest)
            = (tagRest ++ encBE 8 off) ++ encodeHashStream rest from by
          simp [List.append_assoc]]
        exact List.drop_left' (by simp [tagRest, encBE_length])
      have hfg : (encodeHashStream rest).length < g := by
        rw [List.length_append, List.length_append, encBE_length] at hfuel
        have : tagRest.length = 4 := rfl
        omega
      simp only [retrieveRunAux]
      rw [ht4,
        if_neg (by decide : ¬(tagRest = ([] : List Nat))),
        if_neg (by decide : ¬(tagRest.length ≠ 4)),
        if_neg (by decide : ¬(tagRest = tagDone)),
        if_neg (by decide : ¬(tagRest = tagHashL)),
        if_neg (by decide : ¬(tagRest = tagHashU)),
        if_pos (rfl : tagRest = tagRest), ht8,
        if_neg (by simp [encBE_length]), decBE_encBE 8 off hoff, hd12]
      rw [show retrieveItems H S (HashItem.restRec off :: rest) st
          = retrieveItems H S rest (stepRest S st off) from rfl]
      simp only [stepRest]
      exact ih g _ hwfrest hfg
    | hashRec p l dh =>
      have hw := hwf _ (List.mem_cons_self _ _)
      obtain ⟨hp, hl, hdh⟩ := hw
      have hin : encodeHashItem (HashItem.hashRec p l dh)
          = tagHashU ++ (encBE 8 p ++ (encBE 4 l ++ dh)) := by
        simp [encodeHashItem, List.append_assoc]
      rw [hin, List.append_assoc, List.append_assoc, List.append_assoc] at hfuel ⊢
      have ht4 : (tagHashU ++ (encBE 8 p ++ (encBE 4 l ++ (dh ++ encodeHashStream rest)))).take 4
          = tagHashU := List.take_left' rfl
      have hd4 : (tagHashU ++ (encBE 8 p ++ (encBE 4 l ++ (dh ++ encodeHashStream rest)))).drop 4
          = encBE 8 p ++ (encBE 4 l ++ (dh ++ encodeHashStream rest)) := List.drop_left' rfl
      have ht8 : ((tagHashU ++ (encBE 8 p ++ (encBE 4 l ++ (dh ++ encodeHashStream rest)))).drop
          4).take 8 = encBE 8 p := by
        rw [hd4]
        exact List.take_left' (encBE_length 8 p)
      have hd12 : (tagHashU ++ (encBE 8 p ++ (encBE 4 l ++ (dh ++ encodeHashStream rest)))).drop 12
          = encBE 4 l ++ (dh ++ encodeHashStream rest) := by
        rw [show tagHashU ++ (encBE 8 p ++ (encBE 4 l ++ (dh ++ encodeHashStream rest)))
            = (tagHashU ++ encBE 8 p) ++ (encBE 4 l ++ (dh ++ encodeHashStream rest)) from by
          simp [List.append_assoc]]
        exact List.drop_left' (by simp [tagHashU, encBE_length])
      have ht12 : ((tagHashU ++ (encBE 8 p ++ (encBE 4 l ++ (dh ++ encodeHashStream rest)))).drop
          12).take 4 = encBE 4 l := by
        rw [hd12]
        exact List.take_left' (encBE_length 4 l)
      have hd16 : (tagHashU ++ (encBE 8 p ++ (encBE 4 l ++ (dh ++ encodeHashStream rest)))).drop 16
          = dh ++ encodeHashStream rest := by
        rw [show tagHashU ++ (encBE 8 p ++ (encBE 4 l ++ (dh ++ encodeHashStream rest)))
            = ((tagHashU ++ encBE 8 p) ++ encBE 4 l) ++ (dh ++ encodeHashStream rest) from by
          simp [List.append_assoc]]
        exact List.drop_left' (by simp [tagHashU, encBE_length])
      have ht16 : ((tagHashU ++ (encBE 8 p ++ (encBE 4 l ++ (dh ++ encodeHashStream rest)))).drop
          16).take hash_digest_size = dh := by
        rw [hd16]
        exact List.take_left' hdh
      have hd80 : (tagHashU ++ (encBE 8 p ++ (encBE 4 l ++ (dh ++ encodeHashStream rest)))).drop 80
          = encodeHashStream rest := by
        rw [show tagHashU ++ (encBE 8 p ++ (encBE 4 l ++ (dh ++ encodeHashStream rest)))
            = (((tagHashU ++ encBE 8 p) ++ encBE 4 l) ++ dh) ++ encodeHashStream rest from by
          simp [List.append_assoc]]
        apply List.drop_left'
        simp [tagHashU, encBE_length, hdh, hash_digest_size]
      have hfg : (encodeHashStream rest).length < g := by
        rw [List.length_append, List.length_append, List.length_append, List.length_append,
          encBE_length, encBE_length, hdh] at hfuel
        have h4 : tagHashU.length = 4 := rfl
        have h64 : hash_digest_size = 64 := rfl
        omega
      simp only [retrieveRunAux]
      rw [ht4,
        if_neg (by decide : ¬(tagHashU = ([] : List Nat))),
        if_neg (by decide : ¬(tagHashU.length ≠ 4)),
        if_neg (by decide : ¬(tagHashU = tagDone)),
        if_neg (by decide : ¬(tagHashU = tagHashL)),
        if_pos (rfl : tagHashU = tagHashU),
        ht8, ht12, ht16,
        if_neg (by simp [encBE_length, hdh]),
        decBE_encBE 8 p hp, decBE_encBE 4 l hl, hd80]
      rw [show retrieveItems H S (HashItem.hashRec p l dh :: rest) st
          = retrieveItems H S rest (stepHash H S st p l dh) from rfl]
      simp only [stepHash]
      by_cases hc1 : (fread S p l).length = l
      · rw [if_pos hc1, if_pos hc1]
        exact ih g _ hwfrest hfg
      · rw [if_neg hc1, if_neg hc1]
        by_cases hc2 : fread S p l = []
        · rw [if_neg (by simp [hc2]), if_neg (by simp [hc2])]
          exact ih g _ hwfrest hfg
        · rw [if_pos hc2, if_pos hc2]
          exact ih g _ hwfrest hfg

/-! ## Parsing an encoded data stream (save side) -/

theorem encodeDataRecords_cons (w : Nat × List Nat) (W : List (Nat × List Nat)) :
    encodeDataRecords (w :: W) = encodeDataRec w.1 w.2 ++ encodeDataRecords W := by
  simp [encodeDataRecords]

theorem saveRunAux_bridge :
    ∀ (W : List (Nat × List Nat)) (fuel : Nat) (D : List Nat),
      (∀ w ∈ W, w.1 < 256 ^ 8 ∧ w.2.length < 256 ^ 4) →
      (encodeDataRecords W ++ tagDone).length < fuel →
      saveRunAux fuel (encodeDataRecords W ++ tagDone) D = (applyWrites D W, none) := by
  intro W
  induction W with
  | nil =>
    intro fuel D _ hfuel
    obtain ⟨g, rfl⟩ : ∃ g, fuel = g + 1 := ⟨fuel - 1, by omega⟩
    rw [show encodeDataRecords [] ++ tagDone = tagDone from by simp [encodeDataRecords]]
    simp only [saveRunAux]
    rw [show tagDone.take 4 = tagDone from rfl,
      if_neg (by decide : ¬(tagDone = ([] : List Nat))),
      if_neg (by decide : ¬(tagDone.length ≠ 4)),
      if_pos (rfl : tagDone = tagDone), applyWrites_nil]
  | cons w W ih =>
    intro fuel D hb hfuel
    obtain ⟨g, rfl⟩ : ∃ g, fuel = g + 1 := ⟨fuel - 1, by omega⟩
    obtain ⟨hw1, hw2⟩ := hb w (List.mem_cons_self _ _)
    have hbrest : ∀ v ∈ W, v.1 < 256 ^ 8 ∧ v.2.length < 256 ^ 4 :=
      fun v hv => hb v (List.mem_cons_of_mem w hv)
    have hin : encodeDataRecords (w :: W) ++ tagDone
        = tagData ++ (encBE 8 w.1 ++ (encBE 4 w.2.length
            ++ (w.2 ++ (encodeDataRecords W ++ tagDone)))) := by
      simp [encodeDataRecords, encodeDataRec, List.append_assoc]
    rw [hin] at hfuel ⊢
    have ht4 : (tagData ++ (encBE 8 w.1 ++ (encBE 4 w.2.length
        ++ (w.2 ++ (encodeDataRecords W ++ tagDone))))).take 4 = tagData := List.take_left' rfl
    have hd4 : (tagData ++ (encBE 8 w.1 ++ (encBE 4 w.2.length
        ++ (w.2 ++ (encodeDataRecords W ++ tagDone))))).drop 4
        = encBE 8 w.1 ++ (encBE 4 w.2.length ++ (w.2 ++ (encodeDataRecords W ++ tagDone))) :=
      List.drop_left' rfl
    have ht8 : ((tagData ++ (encBE 8 w.1 ++ (encBE 4 w.2.length
        ++ (w.2 ++ (encodeDataRecords W ++ tagDone))))).drop 4).take 8 = encBE 8 w.1 := by
      rw [hd4]
      exact List.take_left' (encBE_length 8 w.1)
    have hd12 : (tagData ++ (encBE 8 w.1 ++ (encBE 4 w.2.length
        ++ (w.2 ++ (encodeDataRecords W ++ tagDone))))).drop 12
        = encBE 4 w.2.length ++ (w.2 ++ (encodeDataRecords W ++ tagDone)) := by
      rw [show tagData ++ (encBE 8 w.1 ++ (encBE 4 w.2.length
          ++ (w.2 ++ (encodeDataRecords W ++ tagDone))))
        = (tagData ++ encBE 8 w.1) ++ (encBE 4 w.2.length
            ++ (w.2 ++ (encodeDataRecords W ++ tagDone))) from by simp [List.append_assoc]]
      exact List.drop_left' (by simp [tagData, encBE_length])
    have ht12 : ((tagData ++ (encBE 8 w.1 ++ (encBE 4 w.2.length
        ++ (w.2 ++ (encodeDataRecords W ++ tagDone))))).drop 12).take 4
        = encBE 4 w.2.length := by
      rw [hd12]
      exact List.take_left' (encBE_length 4 w.2.length)
    have hd16 : (tagData ++ (encBE 8 w.1 ++ (encBE 4 w.2.length
        ++ (w.2 ++ (encodeDataRecords W ++ tagDone))))).drop 16
        = w.2 ++ (encodeDataRecords W ++ tagDone) := by
      rw [show tagData ++ (encBE 8 w.1 ++ (encBE 4 w.2.length
          ++ (w.2 ++ (encodeDataRecords W ++ tagDone))))
        = ((tagData ++ encBE 8 w.1) ++ encBE 4 w.2.length)
            ++ (w.2 ++ (encodeDataRecords W ++ tagDone)) from by simp [List.append_assoc]]
      exact List.drop_left' (by simp [tagData, encBE_length])
    have hdrec : (tagData ++ (encBE 8 w.1 ++ (encBE 4 w.2.length
        ++ (w.2 ++ (encodeDataRecords W ++ tagDone))))).drop (16 + w.2.length)
        = encodeDataRecords W ++ tagDone := by
      rw [show tagData ++ (encBE 8 w.1 ++ (encBE 4 w.2.length
          ++ (w.2 ++ (encodeDataRecords W ++ tagDone))))
        = (((tagData ++ encBE 8 w.1) ++ encBE 4 w.2.length) ++ w.2)
            ++ (encodeDataRecords W ++ tagDone) from by simp [List.append_assoc]]
      apply List.drop_left'
      simp [tagData, encBE_length]
      omega
    have hfg : (encodeDataRecords W ++ tagDone).length < g := by
      rw [List.length_append, List.length_append, List.length_append, List.length_append,
        encBE_length, encBE_length] at hfuel
      have h4 : tagData.length = 4 := rfl
      omega
    simp only [saveRunAux]
    rw [ht4,
      if_neg (by decide : ¬(tagData = ([] : List Nat))),
      if_neg (by decide : ¬(tagData.length ≠ 4)),
      if_neg (by decide : ¬(tagData = tagDone)),
      if_pos (rfl : tagData = tagData),
      ht8, ht12,
      if_neg (by simp [encBE_length]),
      decBE_encBE 8 w.1 hw1, decBE_encBE 4 w.2.length hw2, hd16,
      List.take_left' (rfl : w.2.length = w.2.length),
      if_neg (by simp), hdrec]
    rw [applyWrites_cons]
    exact ih g (fwrite D w.1 w.2) hbrest hfg

/-! ## Putting the pipeline together -/

theorem take_min_length (l : List Nat) (n : Nat) : l.take (min n l.length) = l.take n := by
  rcases le_total n l.length with h | h
  · rw [min_eq_left h]
  · rw [min_eq_right h, List.take_length, List.take_of_length_le h]

theorem checksumRecords_zero_none_wf (H : List Nat → List Nat)
    (hLen : ∀ b, (H b).length = hash_digest_size) (D : List Nat) (hD : D.length < 256 ^ 8) :
    ∀ it ∈ checksumRecords H D 0 none true, wfItem it := by
  intro it hit
  have hbs : block_size < 256 ^ 4 := by norm_num [block_size]
  simp only [checksumRecords, if_true] at hit
  rcases List.mem_append.mp hit with h1 | h1
  · rcases List.mem_append.mp h1 with h2 | h2
    · obtain ⟨b, hb, rfl⟩ := List.mem_map.mp h2
      have hf := checksumReadAux_none_blocks D (D.length + 1) 0 b hb
      refine ⟨?_, ?_, hLen b.2⟩
      · have : b.1 < D.length := by
          have := hf.2.1
          have := hf.2.2.1
          omega
        exact lt_trans this hD
      · have : b.2.length ≤ block_size := by
          rw [hf.1, fread_length]
          exact min_le_left _ _
        exact lt_of_le_of_lt this hbs
    · have : it = HashItem.restRec (checksumRead D none 0).2 := by simpa using h2
      rw [this]
      show (checksumRead D none 0).2 < 256 ^ 8
      rw [checksumRead_none_snd]
      exact hD
  · have : it = HashItem.doneRec := by simpa using h1
    rw [this]
    trivial

theorem retrieve_out_bounds (H : List Nat → List Nat) (S D : List Nat)
    (hS : S.length < 256 ^ 8) (hD : D.length < 256 ^ 8) :
    ∀ w ∈ (retrieveItems H S (checksumRecords H D 0 none true) initRetSt).out,
      w.1 < 256 ^ 8 ∧ w.2.length < 256 ^ 4 := by
  obtain ⟨A, B, hAB, hout, _⟩ := retrieveItems_checksum H S D
  rw [hout]
  intro w hw
  have hbs : block_size < 256 ^ 4 := by norm_num [block_size]
  have hhashw : w ∈ A ++ B → w.1 < 256 ^ 8 ∧ w.2.length < 256 ^ 4 := by
    intro hmem
    rw [hAB] at hmem
    obtain ⟨b, hb, h1, h2⟩ := filterBatch_entriesFor_mem H S _ w hmem
    have hf := checksumReadAux_none_blocks D (D.length + 1) 0 b hb
    constructor
    · have hblt : b.1 < D.length := by
        have := hf.2.1
        have := hf.2.2.1
        omega
      rw [h1]
      exact lt_trans hblt hD
    · have hble : b.2.length ≤ block_size := by
        rw [hf.1, fread_length]
        exact min_le_left _ _
      rw [h2, fread_length]
      exact lt_of_le_of_lt (le_trans (min_le_left _ _) hble) hbs
  rcases List.mem_append.mp hw with hw' | hwB
  · rcases List.mem_append.mp hw' with hwA | hwR
    · exact hhashw (List.mem_append_left B hwA)
    · have hf := checksumReadAux_none_blocks S (S.length + 1) D.length w hwR
      constructor
      · have : w.1 < S.length := by
          have := hf.2.1
          have := hf.2.2.1
          omega
        exact lt_trans this hS
      · have : w.2.length ≤ block_size := by
          rw [hf.1, fread_length]
          exact min_le_left _ _
        exact lt_of_le_of_lt this hbs
  · exact hhashw (List.mem_append_right A hwB)

theorem retrieveRun_checksum_items (H : List Nat → List Nat)
    (hLen : ∀ b, (H b).length = hash_digest_size) (S D : List Nat) (hD : D.length < 256 ^ 8) :
    retrieveRun H S (checksumStream H D 0 none true) initRetSt
      = retrieveItems H S (checksumRecords H D 0 none true) initRetSt := by
  unfold retrieveRun checksumStream
  exact retrieveRunAux_encode H S (checksumRecords H D 0 none true) _ initRetSt
    (checksumRecords_zero_none_wf H hLen D hD) (Nat.lt_succ_self _)

theorem do_retrieve_on_checksum (H : List Nat → List Nat)
    (hLen : ∀ b, (H b).length = hash_digest_size) (S D : List Nat) (hD : D.length < 256 ^ 8) :
    do_retrieve H S (do_checksum H D 0 none true false).output false
      = ⟨encodeDataRecords
            (retrieveItems H S (checksumRecords H D 0 none true) initRetSt).out ++ tagDone,
         none⟩ := by
  obtain ⟨A, B, hAB, hout, houtc⟩ := retrieveItems_checksum H S D
  have hcs : (do_checksum H D 0 none true false).output = checksumStream H D 0 none true := by
    simp [do_checksum]
  rw [hcs]
  simp [do_retrieve, retrieveRun_checksum_items H hLen S D hD, houtc]

theorem filterBatch_entriesFor_self (H : List Nat → List Nat) (D : List Nat)
    (blocks : List (Nat × List Nat))
    (hb : ∀ b ∈ blocks, fread D b.1 b.2.length = b.2) :
    filterBatch H (entriesFor H D blocks) = [] := by
  induction blocks with
  | nil => simp [entriesFor, filterBatch]
  | cons b bs ih =>
    rw [show entriesFor H D (b :: bs) = entriesFor H D [b] ++ entriesFor H D bs from by
        simp [entriesFor, ← List.filterMap_append],
      filterBatch_append,
      ih (fun v hv => hb v (List.mem_cons_of_mem b hv)), List.append_nil]
    have hself := hb b (List.mem_cons_self b bs)
    obtain ⟨p, d⟩ := b
    rw [blockDecision_eq, if_pos (by rw [hself]), hself, if_pos rfl]

theorem checksumRead_self_fread (D : List Nat) :
    ∀ b ∈ (checksumRead D none 0).1, fread D b.1 b.2.length = b.2 := by
  intro b hb
  have hf := checksumReadAux_none_blocks D (D.length + 1) 0 b hb
  rw [hf.1, fread_length, ← List.length_drop, fread, fread, take_min_length]

theorem retrieveRunAux_incomplete_msg (H : List Nat → List Nat) (S : List Nat) :
    ∀ (fuel : Nat) (input : List Nat) (st : RetSt) (msg : String),
      (retrieveRunAux H S fuel input st).outcome = ROutcome.incomplete msg →
      msg ∈ incompleteMessages := by
  intro fuel
  induction fuel with
  | zero =>
    intro input st msg h
    simp [retrieveRunAux] at h
  | succ fuel ih =>
    intro input st msg h
    simp only [retrieveRunAux] at h
    repeat' split at h
    all_goals
      first
        | exact ih _ _ _ h
        | simp_all [incompleteMessages]

/-! ## Claim theorems -/

/-- **C1** Round-trip identity: for every source byte string `S` and destination
byte string `D` (possibly empty), piping `checksum(D) | retrieve(S) | save(D)`
succeeds and leaves the destination with its first `S.length` bytes equal to
`S` and every byte at offset `≥ S.length` unchanged from the original `D`.
SHA3-512 is modelled by a 64-byte abstract digest `H`, assumed collision-free
(`Function.Injective H`); the size bounds make the 64-bit/32-bit wire fields
faithful. -/
theorem c1_roundtrip_identity (H : List Nat → List Nat)
    (hLen : ∀ b, (H b).length = hash_digest_size) (hInj : Function.Injective H)
    (S D : List Nat) (hS : S.length < 256 ^ 8) (hD : D.length < 256 ^ 8) :
    (do_checksum H D 0 none true false).exit = none ∧
    (do_retrieve H S (do_checksum H D 0 none true false).output false).exit = none ∧
    (do_save D (do_retrieve H S (do_checksum H D 0 none true false).output false).output).2
      = none ∧
    (do_save D (do_retrieve H S (do_checksum H D 0 none true false).output
        false).output).1.take S.length = S ∧
    (do_save D (do_retrieve H S (do_checksum H D 0 none true false).output
        false).output).1.drop S.length = D.drop S.length := by
  have hretr := do_retrieve_on_checksum H hLen S D hD
  have hretrout : (do_retrieve H S (do_checksum H D 0 none true false).output false).output
      = encodeDataRecords
          (retrieveItems H S (checksumRecords H D 0 none true) initRetSt).out ++ tagDone := by
    rw [hretr]
  have hretrexit : (do_retrieve H S (do_checksum H D 0 none true false).output false).exit
      = none := by
    rw [hretr]
  have hsave : do_save D (encodeDataRecords
        (retrieveItems H S (checksumRecords H D 0 none true) initRetSt).out ++ tagDone)
      = (applyWrites D (retrieveItems H S (checksumRecords H D 0 none true) initRetSt).out,
         none) := by
    unfold do_save
    exact saveRunAux_bridge _ _ D (retrieve_out_bounds H S D hS hD) (Nat.lt_succ_self _)
  have happly := retrieve_out_applyWrites H hInj S D
  refine ⟨by simp [do_checksum], hretrexit, ?_, ?_, ?_⟩
  · rw [hretrout, hsave]
  · rw [hretrout, hsave, happly]
    show (S ++ D.drop S.length).take S.length = S
    exact List.take_left S (D.drop S.length)
  · rw [hretrout, hsave, happly]
    show (S ++ D.drop S.length).drop S.length = D.drop S.length
    exact List.drop_left S (D.drop S.length)

/-- **C7** No-op on identical: when the source equals the destination, the data
stream produced by `retrieve` contains zero `data` records and is exactly the
four bytes of `b"done"`, with exit status 0. -/
theorem c7_noop_on_identical (H : List Nat → List Nat)
    (hLen : ∀ b, (H b).length = hash_digest_size) (D : List Nat) (hD : D.length < 256 ^ 8) :
    (retrieveItems H D (checksumRecords H D 0 none true) initRetSt).out = [] ∧
    do_retrieve H D (do_checksum H D 0 none true false).output false
      = ⟨tagDone, none⟩ ∧
    tagDone = [100, 111, 110, 101] := by
  obtain ⟨A, B, hAB, hout, houtc⟩ := retrieveItems_checksum H D D
  have hABnil : A ++ B = [] := by
    rw [hAB]
    exact filterBatch_entriesFor_self H D _ (checksumRead_self_fread D)
  obtain ⟨hAnil, hBnil⟩ := List.append_eq_nil.mp hABnil
  have hread : fread D D.length (readLen none D.length) = [] :=
    (fread_eq_nil_iff _ _ _).mpr (Or.inr le_rfl)
  have hRnil : (checksumRead D none D.length).1 = [] := by
    simp [checksumRead, checksumReadAux, hread]
  have houtnil : (retrieveItems H D (checksumRecords H D 0 none true) initRetSt).out = [] := by
    rw [hout, hAnil, hBnil, hRnil]
    rfl
  refine ⟨houtnil, ?_, rfl⟩
  rw [do_retrieve_on_checksum H hLen D D hD, houtnil]
  rfl

theorem filterMap_hashRec_map (H : List Nat → List Nat) (bs : List (Nat × List Nat)) :
    List.filterMap
      ((fun it => match it with | HashItem.hashRec p l _ => some (p, l) | _ => none)
        ∘ fun b => HashItem.hashRec b.1 b.2.length (H b.2)) bs
      = bs.map (fun b => (b.1, b.2.length)) := by
  induction bs with
  | nil => rfl
  | cons b bs ih => simp [List.filterMap_cons, Function.comp, ih]

theorem hashEntriesOf_records (H : List Nat → List Nat) (D : List Nat) (start : Nat)
    (endOff : Option Nat) (seekable : Bool) :
    hashEntriesOf (checksumRecords H D start endOff seekable)
      = (checksumRead D endOff start).1.map (fun b => (b.1, b.2.length)) := by
  unfold hashEntriesOf checksumRecords
  cases seekable <;> simp [List.filterMap_append] <;> exact filterMap_hashRec_map H _

theorem chainFrom_chain' :
    ∀ (bs : List (Nat × List Nat)) (p : Nat), chainFrom p bs →
      (∀ b ∈ bs, 0 < b.2.length) →
      List.Chain' (fun a b => a.1 + a.2 = b.1 ∧ a.1 < b.1)
        (bs.map (fun b => (b.1, b.2.length))) := by
  intro bs
  induction bs with
  | nil => intro p _ _; simp
  | cons b bs ih =>
    intro p hc hpos
    obtain ⟨hb1, hcrest⟩ := hc
    cases bs with
    | nil => simp
    | cons c cs =>
      obtain ⟨hc1, hrest2⟩ := hcrest
      rw [List.map_cons, List.map_cons, List.chain'_cons]
      have hbpos := hpos b (List.mem_cons_self b _)
      constructor
      · exact ⟨by show b.1 + b.2.length = c.1; omega, by show b.1 < c.1; omega⟩
      · exact ih (p + b.2.length) ⟨hc1, hrest2⟩
          (fun v hv => hpos v (List.mem_cons_of_mem b hv))

theorem chain'_and_pairwise (l : List (Nat × Nat))
    (h : List.Chain' (fun a b => a.1 + a.2 = b.1 ∧ a.1 < b.1) l) :
    l.Pairwise (fun a b => a.1 < b.1) := by
  haveI : IsTrans (Nat × Nat) (fun a b : Nat × Nat => a.1 < b.1) :=
    ⟨fun a b c h1 h2 => lt_trans h1 h2⟩
  exact List.chain'_iff_pairwise.mp (h.imp (fun a b hab => hab.2))

theorem chain'_full_map (bs : List (Nat × List Nat))
    (h : List.Chain' (fun a _ => a.2.length = block_size) bs) :
    List.Chain' (fun (a : Nat × Nat) _ => a.2 = block_size)
      (bs.map (fun b => (b.1, b.2.length))) := by
  rw [List.chain'_map]
  exact h

/-- **C3** Hash-stream invariants: every hash stream produced by `checksum`
consists of `Hash` records with strictly increasing, pairwise contiguous
positions, each of length at most `BLOCK_SIZE = 131072` with only the final
record possibly shorter, followed by at most one `rest` directive and exactly
one final `done`.  The hypothesis restricts to runs that produce a stream (a
non-seekable destination with a nonzero `--start` dies before writing). -/
theorem c3_hash_stream_invariants (H : List Nat → List Nat) (D : List Nat) (start : Nat)
    (endOff : Option Nat) (seekable : Bool) (hprod : seekable = true ∨ start = 0) :
    block_size = 131072 ∧
    (∃ hs ropt, checksumRecords H D start endOff seekable = hs ++ ropt ++ [HashItem.doneRec]
      ∧ (∀ h ∈ hs, isHashRec h)
      ∧ (ropt = [] ∨ ∃ e, ropt = [HashItem.restRec e])) ∧
    List.Chain' (fun a b => a.1 + a.2 = b.1 ∧ a.1 < b.1)
      (hashEntriesOf (checksumRecords H D start endOff seekable)) ∧
    (hashEntriesOf (checksumRecords H D start endOff seekable)).Pairwise
      (fun a b => a.1 < b.1) ∧
    (∀ e ∈ hashEntriesOf (checksumRecords H D start endOff seekable),
      0 < e.2 ∧ e.2 ≤ block_size) ∧
    List.Chain' (fun (a : Nat × Nat) _ => a.2 = block_size)
      (hashEntriesOf (checksumRecords H D start endOff seekable)) := by
  clear hprod
  have hspec := checksumReadAux_spec D endOff (D.length + 1) start (by omega)
  refine ⟨rfl, ?_, ?_, ?_, ?_, ?_⟩
  · refine ⟨(checksumRead D endOff start).1.map
        (fun b => HashItem.hashRec b.1 b.2.length (H b.2)),
      if seekable then [HashItem.restRec (checksumRead D endOff start).2] else [],
      by simp [checksumRecords], ?_, ?_⟩
    · intro h hh
      obtain ⟨b, _, rfl⟩ := List.mem_map.mp hh
      trivial
    · cases seekable
      · exact Or.inl rfl
      · exact Or.inr ⟨(checksumRead D endOff start).2, rfl⟩
  · rw [hashEntriesOf_records]
    exact chainFrom_chain' _ start hspec.1 (fun b hb => (hspec.2.1 b hb).1)
  · rw [hashEntriesOf_records]
    exact chain'_and_pairwise _
      (chainFrom_chain' _ start hspec.1 (fun b hb => (hspec.2.1 b hb).1))
  · rw [hashEntriesOf_records]
    intro e he
    obtain ⟨b, hb, rfl⟩ := List.mem_map.mp he
    exact ⟨(hspec.2.1 b hb).1, (hspec.2.1 b hb).2⟩
  · rw [hashEntriesOf_records]
    exact chain'_full_map _ hspec.2.2.1

/-- **C4** On a seekable destination `checksum` emits exactly one
`rest(source_end_offset)` whose offset is the post-read cursor — the start
offset plus the number of bytes hashed — just before the final `done`; on a
non-seekable destination (where `tell()` raises) it omits `rest` but still
terminates the stream with `done`. -/
theorem c4_rest_directive (H : List Nat → List Nat) (D : List Nat) (start : Nat)
    (endOff : Option Nat) :
    (∃ bl : List (Nat × List Nat), checksumRecords H D start endOff true
        = bl.map (fun b => HashItem.hashRec b.1 b.2.length (H b.2))
          ++ [HashItem.restRec (start + (bl.map (fun b => b.2.length)).sum),
              HashItem.doneRec]) ∧
    (∃ bl : List (Nat × List Nat), checksumRecords H D 0 endOff false
        = bl.map (fun b => HashItem.hashRec b.1 b.2.length (H b.2))
          ++ [HashItem.doneRec]) := by
  constructor
  · refine ⟨(checksumRead D endOff start).1, ?_⟩
    have hsum : (checksumRead D endOff start).2
        = start + ((checksumRead D endOff start).1.map (fun b => b.2.length)).sum :=
      (checksumReadAux_spec D endOff (D.length + 1) start (by omega)).2.2.2
    rw [show checksumRecords H D start endOff true
        = (checksumRead D endOff start).1.map
            (fun b => HashItem.hashRec b.1 b.2.length (H b.2))
          ++ [HashItem.restRec (checksumRead D endOff start).2, HashItem.doneRec] from by
      simp [checksumRecords]]
    rw [hsum]
  · refine ⟨(checksumRead D endOff 0).1, ?_⟩
    simp [checksumRecords]

/-- **C2 (amended)** Response of `retrieve` to a single inbound
`Hash(p, l, dh)` record: when the source read returns exactly `l` bytes
(including the degenerate `l = 0`, where the empty read counts as a full read)
a `data` record is emitted iff the digest of the bytes read differs from `dh`;
when the read returns `k` bytes with `0 < k < l` the partial block is emitted
unconditionally; when the read returns no bytes and `l > 0` nothing is
emitted. -/
theorem c2_hash_record_emission (H : List Nat → List Nat) (S : List Nat) (p l : Nat)
    (dh : List Nat) (hp : p < 256 ^ 8) (hl : l < 256 ^ 4)
    (hdh : dh.length = hash_digest_size) :
    (retrieveRun H S (tagHashU ++ encBE 8 p ++ encBE 4 l ++ dh ++ tagDone) initRetSt).outcome
        = ROutcome.finished
    ∧ ((fread S p l).length = l →
        (retrieveRun H S (tagHashU ++ encBE 8 p ++ encBE 4 l ++ dh ++ tagDone) initRetSt).out
          = if H (fread S p l) = dh then [] else [(p, fread S p l)])
    ∧ (0 < (fread S p l).length → (fread S p l).length < l →
        (retrieveRun H S (tagHashU ++ encBE 8 p ++ encBE 4 l ++ dh ++ tagDone) initRetSt).out
          = [(p, fread S p l)])
    ∧ ((fread S p l).length = 0 → 0 < l →
        (retrieveRun H S (tagHashU ++ encBE 8 p ++ encBE 4 l ++ dh ++ tagDone) initRetSt).out
          = []) := by
  have hwf : ∀ it ∈ [HashItem.hashRec p l dh, HashItem.doneRec], wfItem it := by
    intro it hit
    simp only [List.mem_cons, List.not_mem_nil, or_false] at hit
    rcases hit with rfl | rfl
    · exact ⟨hp, hl, hdh⟩
    · trivial
  have hrun : retrieveRun H S (tagHashU ++ encBE 8 p ++ encBE 4 l ++ dh ++ tagDone) initRetSt
      = retrieveItems H S [HashItem.hashRec p l dh, HashItem.doneRec] initRetSt := by
    rw [show tagHashU ++ encBE 8 p ++ encBE 4 l ++ dh ++ tagDone
        = encodeHashStream [HashItem.hashRec p l dh, HashItem.doneRec] from by
      simp [encodeHashStream, encodeHashItem, List.append_assoc]]
    unfold retrieveRun
    exact retrieveRunAux_encode H S _ _ initRetSt hwf (Nat.lt_succ_self _)
  refine ⟨by rw [hrun]; rfl, ?_, ?_, ?_⟩
  · intro hfl
    rw [hrun]
    by_cases heq : H (fread S p l) = dh
    · simp [retrieveItems, stepHash, hfl, procEntry, flushBatch, filterBatch, initRetSt, heq]
    · simp [retrieveItems, stepHash, hfl, procEntry, flushBatch, filterBatch, initRetSt, heq]
  · intro h1 h2
    have hne : (fread S p l).length ≠ l := by omega
    have hnil : fread S p l ≠ [] := by
      intro hc
      rw [hc] at h1
      simp at h1
    rw [hrun]
    simp [retrieveItems, stepHash, hne, hnil, procEntry, flushBatch, filterBatch, initRetSt]
  · intro h0 hl0
    have hdnil : fread S p l = [] := List.length_eq_zero.mp h0
    have hne : (fread S p l).length ≠ l := by omega
    have hl0' : (0 : Nat) ≠ l := (Nat.ne_of_lt hl0)
    rw [hrun]
    simp [retrieveItems, stepHash, hne, hdnil, procEntry, flushBatch, filterBatch, initRetSt,
      hl0']

/-- **C2 counterexample** The claim as frozen also asserts that a read
returning 0 bytes never produces a record.  That is false for a
`Hash(pos, len = 0, dhash)` record: the code compares `len(block_data) ==
block_size` (`0 == 0`), so the empty read is treated as a full read and a
`data(0, 0, b"")` record is emitted whenever `dhash` is not the digest of the
empty string. -/
theorem c2_zero_read_counterexample :
    fread ([] : List Nat) 0 0 = [] ∧
    (retrieveRun mockHash []
        (tagHashU ++ encBE 8 0 ++ encBE 4 0 ++ List.replicate 64 1 ++ tagDone)
        initRetSt).out = [(0, [])] := by
  constructor
  · rfl
  · decide

/-- **C5** If the hash input stream of `retrieve` ends (or yields a truncated
record) before a `done` tag — i.e. the read worker latched an
`IncompleteReadError` — the process exits non-zero with an incomplete-read
message, and the bytes it wrote downstream are exactly the well-framed
encoding of the complete `data` records it had flushed, with no trailing
`done` appended. -/
theorem c5_incomplete_hash_input (H : List Nat → List Nat) (S input : List Nat) (msg : String)
    (h : (retrieveRun H S input initRetSt).outcome = ROutcome.incomplete msg) :
    do_retrieve H S input false
      = ⟨encodeDataRecords (retrieveRun H S input initRetSt).out,
         some ("ERROR (retrieve): " ++ msg)⟩
    ∧ msg ∈ incompleteMessages := by
  refine ⟨?_, retrieveRunAux_incomplete_msg H S (input.length + 1) input initRetSt msg h⟩
  simp [do_retrieve, h]

/-- **C6** `save` consumes a stream of `data(pos, len, bytes)` records by
seeking to `pos` and writing exactly those bytes (`fwrite`), exits 0 at
`done`, leaves every destination byte outside the written ranges unchanged,
and the destination only grows when a write extends past end-of-file. -/
theorem c6_save_data_records (D : List Nat) (W : List (Nat × List Nat)) (p : Nat)
    (d : List Nat)
    (hW : ∀ w ∈ W, w.1 < 256 ^ 8 ∧ w.2.length < 256 ^ 4) :
    do_save D (encodeDataRecords W ++ tagDone) = (applyWrites D W, none)
    ∧ (∀ i : Nat, i < D.length → i < p ∨ p + d.length ≤ i → (fwrite D p d)[i]? = D[i]?)
    ∧ (∀ i : Nat, p ≤ i → i < p + d.length → (fwrite D p d)[i]? = d[i - p]?)
    ∧ (fwrite D p d).length = max D.length (if d = [] then 0 else p + d.length) := by
  refine ⟨?_, ?_, ?_, ?_⟩
  · unfold do_save
    exact saveRunAux_bridge W _ D hW (Nat.lt_succ_self _)
  · intro i h1 h2
    rcases h2 with h2 | h2
    · exact fwrite_getElem?_left D p d i h2 h1
    · exact fwrite_getElem?_right D p d i h2
  · exact fun i h1 h2 => fwrite_getElem?_mid D p d i h1 h2
  · rw [fwrite_length]
    by_cases hd : d = [] <;> simp [hd]

/-- **C8 (code bug)** The command line `--version` does not print
`blockcopy 0.0.2\n` with exit status 0: `main()`'s parser declares only
`-v`/`--verbose` (plus the automatic help flags), `--version` is not an
abbreviation of any of them, so argparse exits with status 2 and writes
nothing to stdout — contradicting the repository's own `tests/test_version.py`. -/
theorem c8_version_flag :
    recognizedOption "--version" = false ∧
    mainVersionRun = ("", 2) ∧
    mainVersionRun ≠ ("blockcopy 0.0.2\n", 0) := by
  refine ⟨by decide, by decide, by decide⟩

/-- **C9** Refuse-to-corrupt: when the output stream of `checksum` or of
`retrieve` is a terminal, the process exits non-zero with a diagnostic before
writing any bytes to that stream. -/
theorem c9_tty_refusal (H : List Nat → List Nat) (D : List Nat) (start : Nat)
    (endOff : Option Nat) (seekable : Bool) (S input : List Nat) :
    (do_checksum H D start endOff seekable true).output = [] ∧
    (do_checksum H D start endOff seekable true).exit
      = some "ERROR (checksum): hash_output_stream is a tty - will not write binary data to terminal" ∧
    (do_retrieve H S input true).output = [] ∧
    (do_retrieve H S input true).exit
      = some "ERROR (retrieve): block_output_stream is a tty - will not write binary data to terminal" := by
  exact ⟨rfl, rfl, rfl, rfl⟩

/-- **C10** A deprecated lower-case `hash` record requires the source read at
the current cursor to return at least one byte: at end-of-file the
`assert block_data` fails the read worker (and an `assertFailed` run makes
`do_retrieve` exit non-zero), whereas an upper-case `Hash` record whose
position is at or past end-of-source is skipped silently and the stream still
finishes with no records emitted. -/
theorem c10_deprecated_hash_eof (H : List Nat → List Nat) (S : List Nat) (c l : Nat)
    (dh tail : List Nat) (pend : List BatchEntry) (outp : List (Nat × List Nat))
    (input : List Nat) (p l' : Nat) (dh' : List Nat)
    (hdh : dh.length = hash_digest_size) (hc : S.length ≤ c)
    (hinput : (retrieveRun H S input initRetSt).outcome = ROutcome.assertFailed)
    (hp : S.length ≤ p) (hl' : 0 < l') (hp8 : p < 256 ^ 8) (hl4 : l' < 256 ^ 4)
    (hdh' : dh'.length = hash_digest_size) :
    (retrieveRun H S (tagHashL ++ encBE 4 l ++ dh ++ tail) ⟨c, pend, outp⟩).outcome
        = ROutcome.assertFailed
    ∧ (∃ m, (do_retrieve H S input false).exit = some m)
    ∧ retrieveRun H S (tagHashU ++ encBE 8 p ++ encBE 4 l' ++ dh' ++ tagDone) ⟨c, [], []⟩
        = ⟨[], ROutcome.finished⟩ := by
  refine ⟨?_, ?_, ?_⟩
  · rw [show tagHashL ++ encBE 4 l ++ dh ++ tail
        = tagHashL ++ (encBE 4 l ++ (dh ++ tail)) from by simp [List.append_assoc]]
    have ht4 : (tagHashL ++ (encBE 4 l ++ (dh ++ tail))).take 4 = tagHashL :=
      List.take_left' rfl
    have hd4 : (tagHashL ++ (encBE 4 l ++ (dh ++ tail))).drop 4
        = encBE 4 l ++ (dh ++ tail) := List.drop_left' rfl
    have ht44 : ((tagHashL ++ (encBE 4 l ++ (dh ++ tail))).drop 4).take 4 = encBE 4 l := by
      rw [hd4]
      exact List.take_left' (encBE_length 4 l)
    have hd8 : (tagHashL ++ (encBE 4 l ++ (dh ++ tail))).drop 8 = dh ++ tail := by
      rw [show tagHashL ++ (encBE 4 l ++ (dh ++ tail))
          = (tagHashL ++ encBE 4 l) ++ (dh ++ tail) from by simp [List.append_assoc]]
      exact List.drop_left' (by simp [tagHashL, encBE_length])
    have ht864 : ((tagHashL ++ (encBE 4 l ++ (dh ++ tail))).drop 8).take hash_digest_size
        = dh := by
      rw [hd8]
      exact List.take_left' hdh
    have hread : fread S c (decBE (encBE 4 l)) = [] :=
      (fread_eq_nil_iff _ _ _).mpr (Or.inr hc)
    unfold retrieveRun
    generalize (tagHashL ++ (encBE 4 l ++ (dh ++ tail))).length = g
    simp only [retrieveRunAux]
    rw [ht4,
      if_neg (by decide : ¬(tagHashL = ([] : List Nat))),
      if_neg (by decide : ¬(tagHashL.length ≠ 4)),
      if_neg (by decide : ¬(tagHashL = tagDone)),
      if_pos (rfl : tagHashL = tagHashL),
      ht44, ht864,
      if_neg (by simp [encBE_length, hdh])]
    rw [if_pos hread]
  · simp [do_retrieve, hinput]
  · have hwf : ∀ it ∈ [HashItem.hashRec p l' dh', HashItem.doneRec], wfItem it := by
      intro it hit
      simp only [List.mem_cons, List.not_mem_nil, or_false] at hit
      rcases hit with rfl | rfl
      · exact ⟨hp8, hl4, hdh'⟩
      · trivial
    have hrun : retrieveRun H S (tagHashU ++ encBE 8 p ++ encBE 4 l' ++ dh' ++ tagDone)
        ⟨c, [], []⟩
        = retrieveItems H S [HashItem.hashRec p l' dh', HashItem.doneRec] ⟨c, [], []⟩ := by
      rw [show tagHashU ++ encBE 8 p ++ encBE 4 l' ++ dh' ++ tagDone
          = encodeHashStream [HashItem.hashRec p l' dh', HashItem.doneRec] from by
        simp [encodeHashStream, encodeHashItem, List.append_assoc]]
      unfold retrieveRun
      exact retrieveRunAux_encode H S _ _ ⟨c, [], []⟩ hwf (Nat.lt_succ_self _)
    have hdnil : fread S p l' = [] := (fread_eq_nil_iff _ _ _).mpr (Or.inr hp)
    have hne : (fread S p l').length ≠ l' := by
      rw [hdnil]
      simpa using Nat.ne_of_lt hl'
    rw [hrun]
    simp [retrieveItems, stepHash, hne, hdnil, flushBatch, filterBatch, Nat.ne_of_lt hl']

theorem mockHash_length : ∀ b, (mockHash b).length = hash_digest_size := by
  intro b
  simp [mockHash, hash_digest_size]

theorem mockHash_injective : Function.Injective mockHash := by
  intro a b h
  exact Encodable.encode_injective (List.cons.inj h).1

/-- Witness for C1 at `S = [1, 2, 3]`, `D = [9, 9]` with the mock hash. -/
theorem c1_roundtrip_identity_witness :
    (do_checksum mockHash [9, 9] 0 none true false).exit = none ∧
    (do_retrieve mockHash [1, 2, 3]
        (do_checksum mockHash [9, 9] 0 none true false).output false).exit = none ∧
    (do_save [9, 9] (do_retrieve mockHash [1, 2, 3]
        (do_checksum mockHash [9, 9] 0 none true false).output false).output).2 = none ∧
    (do_save [9, 9] (do_retrieve mockHash [1, 2, 3]
        (do_checksum mockHash [9, 9] 0 none true false).output false).output).1.take 3
      = [1, 2, 3] ∧
    (do_save [9, 9] (do_retrieve mockHash [1, 2, 3]
        (do_checksum mockHash [9, 9] 0 none true false).output false).output).1.drop 3
      = ([9, 9] : List Nat).drop 3 :=
  c1_roundtrip_identity mockHash mockHash_length mockHash_injective [1, 2, 3] [9, 9]
    (by decide) (by decide)

/-- Witness for C2 (amended) at `S = [5]`, a `Hash(0, 1, 0^64)` record. -/
theorem c2_hash_record_emission_witness :
    (retrieveRun mockHash [5]
        (tagHashU ++ encBE 8 0 ++ encBE 4 1 ++ List.replicate 64 0 ++ tagDone)
        initRetSt).outcome = ROutcome.finished
    ∧ ((fread [5] 0 1).length = 1 →
        (retrieveRun mockHash [5]
            (tagHashU ++ encBE 8 0 ++ encBE 4 1 ++ List.replicate 64 0 ++ tagDone)
            initRetSt).out
          = if mockHash (fread [5] 0 1) = List.replicate 64 0 then []
            else [(0, fread [5] 0 1)])
    ∧ (0 < (fread [5] 0 1).length → (fread [5] 0 1).length < 1 →
        (retrieveRun mockHash [5]
            (tagHashU ++ encBE 8 0 ++ encBE 4 1 ++ List.replicate 64 0 ++ tagDone)
            initRetSt).out = [(0, fread [5] 0 1)])
    ∧ ((fread [5] 0 1).length = 0 → 0 < 1 →
        (retrieveRun mockHash [5]
            (tagHashU ++ encBE 8 0 ++ encBE 4 1 ++ List.replicate 64 0 ++ tagDone)
            initRetSt).out = []) :=
  c2_hash_record_emission mockHash [5] 0 1 (List.replicate 64 0) (by decide) (by decide)
    (by decide)

/-- Witness for C3 at `D = [1]`, `start = 0`, a seekable destination. -/
theorem c3_hash_stream_invariants_witness :
    block_size = 131072 ∧
    (∃ hs ropt, checksumRecords mockHash [1] 0 none true = hs ++ ropt ++ [HashItem.doneRec]
      ∧ (∀ h ∈ hs, isHashRec h)
      ∧ (ropt = [] ∨ ∃ e, ropt = [HashItem.restRec e])) ∧
    List.Chain' (fun a b => a.1 + a.2 = b.1 ∧ a.1 < b.1)
      (hashEntriesOf (checksumRecords mockHash [1] 0 none true)) ∧
    (hashEntriesOf (checksumRecords mockHash [1] 0 none true)).Pairwise
      (fun a b => a.1 < b.1) ∧
    (∀ e ∈ hashEntriesOf (checksumRecords mockHash [1] 0 none true),
      0 < e.2 ∧ e.2 ≤ block_size) ∧
    List.Chain' (fun (a : Nat × Nat) _ => a.2 = block_size)
      (hashEntriesOf (checksumRecords mockHash [1] 0 none true)) :=
  c3_hash_stream_invariants mockHash [1] 0 none true (Or.inl rfl)

/-- Witness for C5: the empty hash input stream is an incomplete stream. -/
theorem c5_incomplete_hash_input_witness :
    (retrieveRun mockHash [] [] initRetSt).outcome = ROutcome.incomplete msgHashClosed ∧
    (do_retrieve mockHash [] [] false
        = ⟨encodeDataRecords (retrieveRun mockHash [] [] initRetSt).out,
           some ("ERROR (retrieve): " ++ msgHashClosed)⟩
     ∧ msgHashClosed ∈ incompleteMessages) :=
  ⟨rfl, c5_incomplete_hash_input mockHash [] [] msgHashClosed rfl⟩

/-- Witness for C6 at `D = [1, 2, 3]`, one `data(2, [7])` record, and the
write `fwrite [1, 2, 3] 1 [8, 9]`. -/
theorem c6_save_data_records_witness :
    (∀ w ∈ ([(2, [7])] : List (Nat × List Nat)), w.1 < 256 ^ 8 ∧ w.2.length < 256 ^ 4) ∧
    (do_save [1, 2, 3] (encodeDataRecords [(2, [7])] ++ tagDone)
        = (applyWrites [1, 2, 3] [(2, [7])], none)
     ∧ (∀ i : Nat, i < ([1, 2, 3] : List Nat).length →
          i < 1 ∨ 1 + ([8, 9] : List Nat).length ≤ i →
          (fwrite [1, 2, 3] 1 [8, 9])[i]? = ([1, 2, 3] : List Nat)[i]?)
     ∧ (∀ i : Nat, 1 ≤ i → i < 1 + ([8, 9] : List Nat).length →
          (fwrite [1, 2, 3] 1 [8, 9])[i]? = ([8, 9] : List Nat)[i - 1]?)
     ∧ (fwrite [1, 2, 3] 1 [8, 9]).length
        = max ([1, 2, 3] : List Nat).length
            (if ([8, 9] : List Nat) = [] then 0 else 1 + ([8, 9] : List Nat).length)) :=
  ⟨by decide, c6_save_data_records [1, 2, 3] [(2, [7])] 1 [8, 9] (by decide)⟩

/-- Witness for C7 at `D = [4, 5]` with the mock hash. -/
theorem c7_noop_on_identical_witness :
    (retrieveItems mockHash [4, 5] (checksumRecords mockHash [4, 5] 0 none true)
        initRetSt).out = [] ∧
    do_retrieve mockHash [4, 5] (do_checksum mockHash [4, 5] 0 none true false).output false
      = ⟨tagDone, none⟩ ∧
    tagDone = [100, 111, 110, 101] :=
  c7_noop_on_identical mockHash mockHash_length [4, 5] (by decide)

/-- Witness for C10: an empty source, a deprecated `hash(1, 0^64)` record at
end-of-file, and an upper-case `Hash(0, 1, 0^64)` record past end-of-source. -/
theorem c10_deprecated_hash_eof_witness :
    (retrieveRun mockHash []
        (tagHashL ++ encBE 4 1 ++ List.replicate 64 0 ++ ([] : List Nat))
        ⟨0, [], []⟩).outcome = ROutcome.assertFailed
    ∧ (∃ m, (do_retrieve mockHash [] (tagHashL ++ encBE 4 1 ++ List.replicate 64 0)
        false).exit = some m)
    ∧ retrieveRun mockHash []
        (tagHashU ++ encBE 8 0 ++ encBE 4 1 ++ List.replicate 64 0 ++ tagDone) ⟨0, [], []⟩
      = ⟨[], ROutcome.finished⟩ :=
  c10_deprecated_hash_eof mockHash [] 0 1 (List.replicate 64 0) [] [] []
    (tagHashL ++ encBE 4 1 ++ List.replicate 64 0) 0 1 (List.replicate 64 0)
    (by decide) (by decide) (by decide) (by decide) (by decide) (by decide) (by decide)
    (by decide)

end Blockcopy

